import Mathlib

set_option linter.unusedSectionVars false

/-!
# Verification of `hash_map.h` (okwedook/HashMap)

A shallow embedding of the separate-chaining hash map from `src/hash_map.h`.
The C++ container keeps all entries in one doubly-linked `std::list`, with a
side array `first_occ_` of iterators (one per bucket) and a parallel `used_`
flag array.  We model the linked list as a `List` of nodes carrying a unique
node identifier (`Node.id`): a C++ list iterator is stable under insertion and
deletion elsewhere, which node identity models exactly.  `first_occ_` becomes a
`List (Option Nat)` of node ids (`none` models a default-constructed, singular
iterator).  Machine integers (`size_t`) are modelled as `Nat`; the float
constants `LOAD_FACTOR = 2` and `RESIZE_FACTOR = 3` make the C++ comparisons
`size_ > hashmod_ * 2.0f` and the argument `hashmod_ * 3.0f` exact for all
feasible sizes, so we embed them as the exact `Nat` comparison and product.

The C++ recursion `add → tryresize → rehash → add` is not structurally
terminating, so the recursion is layered by a fuel parameter that is spent
only when entering a nested `rehash`; with fuel `0` the resize is skipped and
the state is returned unchanged.  Public entry points supply generous fuel.
All invariant, permutation and monotonicity theorems below are proved for
every fuel value, so no result depends on the particular fuel bound chosen.
-/

namespace HashMapVerif

/-- One element of the entry sequence: a stored key/value pair together with
the node identity that models the C++ `std::list` node address. -/
structure Node (Key Value : Type) where
  id : Nat
  key : Key
  val : Value
deriving DecidableEq

/-- The state of `HashMap<Key, Value, Hash>`: field for field the C++ data
members (`hashmod_`, `list_`, `size_`, `first_occ_`, `used_`, `hasher_`),
plus the allocator counter `nextId` that provides fresh node identities. -/
structure HashMap (Key Value : Type) where
  hashmod_ : Nat
  list_ : List (Node Key Value)
  size_ : Nat
  first_occ_ : List (Option Nat)
  used_ : List Bool
  hasher_ : Key → Nat
  nextId : Nat

variable {Key Value : Type} [DecidableEq Key] [Inhabited Value]

/-- `hash(k) mod table_size`, as a function of the two relevant components. -/
def bucketOf (hash : Key → Nat) (hm : Nat) (k : Key) : Nat :=
  hash k % hm

namespace HashMap

/-- `geth`: returns hash modulo table size. -/
def geth (m : HashMap Key Value) (k : Key) : Nat :=
  bucketOf m.hasher_ m.hashmod_ k

/-- The key/value pairs currently stored, in entry-sequence order. -/
def entriesOf (m : HashMap Key Value) : List (Key × Value) :=
  m.list_.map fun n => (n.key, n.val)

/-- Insert a node in front of the (unique) node with id `i`; models
`list_.insert(it, p)` for an iterator `it` addressing node `i`.  If no node
has id `i` the new node is appended, which is never exercised from states
where the stored iterator is valid. -/
def insertBeforeId (l : List (Node Key Value)) (i : Nat) (x : Node Key Value) :
    List (Node Key Value) :=
  l.takeWhile (fun e => e.id != i) ++ x :: l.dropWhile (fun e => e.id != i)

/-- Remove the (unique) node with id `i`; models `list_.erase(it)`. -/
def eraseId (l : List (Node Key Value)) (i : Nat) : List (Node Key Value) :=
  l.takeWhile (fun e => e.id != i) ++ (l.dropWhile (fun e => e.id != i)).tail

/-- The successor node of the node with id `i`; models `++it` followed by the
`it == end()` test (`none` = `end()`). -/
def nextOfId (l : List (Node Key Value)) (i : Nat) : Option (Node Key Value) :=
  match l.dropWhile (fun e => e.id != i) with
  | _ :: b :: _ => some b
  | _ => none

/-- `clear()`: `used_` is reallocated at the current table size, the entry
list and the element count are reset; `first_occ_` keeps its (now stale)
iterators, exactly as in the source. -/
def clear (m : HashMap Key Value) : HashMap Key Value :=
  { m with used_ := List.replicate m.hashmod_ false, list_ := [], size_ := 0 }

/-- The body of `add(p, h)` up to the `tryresize()` call, which is passed in
as `tryres` (the fuel-layered resize, see `tryresizeF`).  Mirrors the source:
increment `size_`; if bucket `h` is unoccupied, push the entry to the back of
the list and record it; otherwise splice it directly before `first_occ_[h]`,
point `first_occ_[h]` at it and run the resize check. -/
def addCore (tryres : HashMap Key Value → HashMap Key Value)
    (m : HashMap Key Value) (p : Key × Value) (h : Nat) : HashMap Key Value :=
  if m.used_.getD h false = false then
    { m with
      size_ := m.size_ + 1,
      used_ := m.used_.set h true,
      list_ := m.list_ ++ [(⟨m.nextId, p.1, p.2⟩ : Node Key Value)],
      first_occ_ := m.first_occ_.set h (some m.nextId),
      nextId := m.nextId + 1 }
  else
    tryres
      { m with
        size_ := m.size_ + 1,
        list_ :=
          match m.first_occ_.getD h none with
          | some t => insertBeforeId m.list_ t ⟨m.nextId, p.1, p.2⟩
          | none => m.list_ ++ [(⟨m.nextId, p.1, p.2⟩ : Node Key Value)],
        first_occ_ := m.first_occ_.set h (some m.nextId),
        nextId := m.nextId + 1 }

/-- `addit(begin, end)`: repeated one-argument `add`, i.e. each element is
added at the bucket computed from the table size current at that moment. -/
def addItCore (addOne : HashMap Key Value → Key × Value → HashMap Key Value) :
    HashMap Key Value → List (Key × Value) → HashMap Key Value
  | m, [] => m
  | m, p :: rest => addItCore addOne (addOne m p) rest

/-- `rehash(new_size)`: snapshot the entries, clear, install the new table
size (minimum 1) with fresh `first_occ_` and `used_` arrays, and re-add every
snapshot entry through the normal insertion path `addOne`. -/
def rehashCore (addOne : HashMap Key Value → Key × Value → HashMap Key Value)
    (m : HashMap Key Value) (new_size : Nat) : HashMap Key Value :=
  addItCore addOne
    { clear m with
      hashmod_ := if new_size = 0 then 1 else new_size,
      first_occ_ := List.replicate (if new_size = 0 then 1 else new_size) none,
      used_ := List.replicate (if new_size = 0 then 1 else new_size) false }
    (entriesOf m)

/-- `tryresize()`, with the recursion through `rehash`/`add` bounded by fuel:
when `size_ > hashmod_ * LOAD_FACTOR` (LOAD_FACTOR = 2) the table is rehashed
to `hashmod_ * RESIZE_FACTOR` (RESIZE_FACTOR = 3).  One unit of fuel is spent
per nested rehash; with no fuel left the resize is skipped. -/
def tryresizeF : Nat → HashMap Key Value → HashMap Key Value
  | 0, m => m
  | fuel + 1, m =>
    if m.size_ > m.hashmod_ * 2 then
      rehashCore
        (fun m1 p => addCore (tryresizeF fuel) m1 p (geth m1 p.1))
        m (m.hashmod_ * 3)
    else m

/-- `add(p, h)` at a given fuel. -/
def addF (fuel : Nat) (m : HashMap Key Value) (p : Key × Value) (h : Nat) :
    HashMap Key Value :=
  addCore (tryresizeF fuel) m p h

/-- The one-argument `add(p)`: bucket computed from the current state. -/
def addKV (fuel : Nat) (m : HashMap Key Value) (p : Key × Value) :
    HashMap Key Value :=
  addF fuel m p (geth m p.1)

/-- `addit` at a given fuel. -/
def addItF (fuel : Nat) (m : HashMap Key Value) (l : List (Key × Value)) :
    HashMap Key Value :=
  addItCore (addKV fuel) m l

/-- `rehash` at a given fuel. -/
def rehashF (fuel : Nat) (m : HashMap Key Value) (new_size : Nat) :
    HashMap Key Value :=
  rehashCore (addKV fuel) m new_size

/-- Fuel supplied at public entry points; ample for every reachable state
(nested rehash depth is logarithmic in the element count). -/
def FUEL (m : HashMap Key Value) : Nat :=
  m.size_ + m.list_.length + 2

/-- The scan loop of `find(k, h)`: walk forward while the current entry still
belongs to bucket `h`, returning the first entry whose key is `k`. -/
def findLoop (m : HashMap Key Value) (k : Key) (h : Nat) :
    List (Node Key Value) → Option (Node Key Value)
  | [] => none
  | c :: rest =>
    if geth m c.key = h then
      if c.key = k then some c else findLoop m k h rest
    else none

/-- The private `find(k, h)`: `end()` (here `none`) if the bucket is
unoccupied, otherwise the scan starting at `first_occ_[h]`. -/
def findH (m : HashMap Key Value) (k : Key) (h : Nat) :
    Option (Node Key Value) :=
  if m.used_.getD h false = false then none
  else
    match m.first_occ_.getD h none with
    | none => none
    | some i => findLoop m k h (m.list_.dropWhile (fun e => e.id != i))

/-- The public `find(k)`. -/
def findPub (m : HashMap Key Value) (k : Key) : Option (Node Key Value) :=
  findH m k (m.geth k)

/-- `count(k, h)`: whether an element with key `k` exists. -/
def countKey (m : HashMap Key Value) (k : Key) (h : Nat) : Bool :=
  (findH m k h).isSome

/-- The value stored under `k`, if any. -/
def valAt (m : HashMap Key Value) (k : Key) : Option Value :=
  (findPub m k).map Node.val

/-- The private `erase(er, h)`: repair the bucket pointer — if `er` is the
group's designated first entry, either advance `first_occ_[h]` to the
successor when it still belongs to bucket `h`, or mark the bucket unoccupied —
then unlink the node.  The element count is not touched. -/
def eraseIt (m : HashMap Key Value) (er : Nat) (h : Nat) : HashMap Key Value :=
  if m.first_occ_.getD h none = some er then
    match nextOfId m.list_ er with
    | none =>
      { m with used_ := m.used_.set h false, list_ := eraseId m.list_ er }
    | some nxt =>
      if geth m nxt.key ≠ h then
        { m with used_ := m.used_.set h false, list_ := eraseId m.list_ er }
      else
        { m with first_occ_ := m.first_occ_.set h (some nxt.id),
                 list_ := eraseId m.list_ er }
  else { m with list_ := eraseId m.list_ er }

/-- The public `erase(iterator)`: the iterator is dereferenced for its key
(to recompute the bucket) and the private erase runs.  An iterator not
denoting a live node is undefined behaviour in C++; the model makes that case
a no-op, and reachability only ever erases live handles. -/
def eraseIter (m : HashMap Key Value) (er : Nat) : HashMap Key Value :=
  match m.list_.find? (fun e => e.id == er) with
  | some n => eraseIt m er (geth m n.key)
  | none => m

/-- The public `erase(k)`: on a hit, decrement `size_` and delegate to the
private erase. -/
def eraseKey (m : HashMap Key Value) (k : Key) : HashMap Key Value :=
  match findH m k (m.geth k) with
  | none => m
  | some n => eraseIt { m with size_ := m.size_ - 1 } n.id (m.geth k)

/-- `empty()`. -/
def emptyb (m : HashMap Key Value) : Bool :=
  m.list_.isEmpty

/-- `size()`. -/
def size (m : HashMap Key Value) : Nat :=
  m.size_

/-- `insert(p)`: add only when the key is not already present. -/
def insert (m : HashMap Key Value) (p : Key × Value) : HashMap Key Value :=
  if countKey m p.1 (m.geth p.1) then m else addF (FUEL m) m p (m.geth p.1)

/-- `operator[]`: return the stored value for `k`, first inserting a
default-constructed value when absent (the source re-runs `find` after the
`add` to obtain the reference it returns). -/
def opIndex (m : HashMap Key Value) (k : Key) : HashMap Key Value × Value :=
  match findPub m k with
  | some n => (m, n.val)
  | none =>
    (addKV (FUEL m) m (k, default),
      match findPub (addKV (FUEL m) m (k, default)) k with
      | some n1 => n1.val
      | none => default)

/-- `at(k)`: the stored value, or the single error condition (the source
throws `std::out_of_range("none")`). -/
def atKey (m : HashMap Key Value) (k : Key) : Except String Value :=
  match findPub m k with
  | some n => Except.ok n.val
  | none => Except.error "none"

/-- The member-initialized state before any constructor body runs:
`hashmod_ = 1`, everything else empty. -/
def initHM (hash : Key → Nat) : HashMap Key Value :=
  { hashmod_ := 1, list_ := [], size_ := 0, first_occ_ := [], used_ := [],
    hasher_ := hash, nextId := 0 }

/-- `HashMap(hash)`: the default constructor body runs `rehash(hashmod_)`. -/
def mkHM (hash : Key → Nat) : HashMap Key Value :=
  rehashF 1 (initHM hash) (initHM hash : HashMap Key Value).hashmod_

/-- The range / initializer-list constructors: default construction followed
by `addit` over the input pairs. -/
def ofList (hash : Key → Nat) (l : List (Key × Value)) : HashMap Key Value :=
  addItF (l.length + 2) (mkHM hash) l

/-- `operator=`: snapshot the source's entries, clear the destination, copy
the hash function, re-run `rehash` at the destination's current `hashmod_`,
then re-add every snapshot entry. -/
def assign (m src : HashMap Key Value) : HashMap Key Value :=
  addItF ((entriesOf src).length + 2)
    (rehashF (FUEL { clear m with hasher_ := src.hasher_ })
      { clear m with hasher_ := src.hasher_ } m.hashmod_)
    (entriesOf src)

end HashMap

open HashMap in
/-- States reachable by the public interface: the constructors, `insert`,
`operator[]`, `erase` by key, `erase` by (valid) iterator, `clear`, and
copy-assignment from another reachable map. -/
inductive Reachable : HashMap Key Value → Prop
  | base (hash : Key → Nat) : Reachable (mkHM hash)
  | ctor (hash : Key → Nat) (l : List (Key × Value)) : Reachable (ofList hash l)
  | ins {m : HashMap Key Value} (p : Key × Value) :
      Reachable m → Reachable (m.insert p)
  | idx {m : HashMap Key Value} (k : Key) :
      Reachable m → Reachable (m.opIndex k).1
  | delKey {m : HashMap Key Value} (k : Key) :
      Reachable m → Reachable (m.eraseKey k)
  | delIter {m : HashMap Key Value} (er : Nat) :
      Reachable m → er ∈ m.list_.map Node.id → Reachable (m.eraseIter er)
  | clr {m : HashMap Key Value} : Reachable m → Reachable m.clear
  | asgn {m src : HashMap Key Value} :
      Reachable m → Reachable src → Reachable (m.assign src)

open HashMap in
/-- One public mutating operation, viewed as a transition of the container
(the source of a copy-assignment may be arbitrary). -/
inductive Step : HashMap Key Value → HashMap Key Value → Prop
  | ins (m : HashMap Key Value) (p : Key × Value) : Step m (m.insert p)
  | idx (m : HashMap Key Value) (k : Key) : Step m (m.opIndex k).1
  | delKey (m : HashMap Key Value) (k : Key) : Step m (m.eraseKey k)
  | delIter (m : HashMap Key Value) (er : Nat) : Step m (m.eraseIter er)
  | clr (m : HashMap Key Value) : Step m m.clear
  | asgn (m src : HashMap Key Value) : Step m (m.assign src)

/-! ## Generic list helpers -/

theorem getD_set_self {α : Type _} (l : List α) (i : Nat) (a d : α)
    (h : i < l.length) : (l.set i a).getD i d = a := by
  rw [List.getD_eq_getElem?_getD, List.getElem?_set_self h]
  rfl

theorem getD_set_ne {α : Type _} (l : List α) {i j : Nat} (h : i ≠ j)
    (a d : α) : (l.set i a).getD j d = l.getD j d := by
  rw [List.getD_eq_getElem?_getD, List.getElem?_set_ne h,
    ← List.getD_eq_getElem?_getD]

theorem getD_replicate {α : Type _} {n i : Nat} (a d : α) :
    (List.replicate n a).getD i d = if i < n then a else d := by
  rw [List.getD_eq_getElem?_getD, List.getElem?_replicate]
  by_cases h : i < n <;> simp [h]

theorem getD_of_len_le {α : Type _} {l : List α} {n : Nat}
    (h : l.length ≤ n) (d : α) : l.getD n d = d := by
  rw [List.getD_eq_getElem?_getD, List.getElem?_eq_none h]
  rfl

theorem takeWhile_split {α : Type _} (p : α → Bool) (X Z : List α) (c : α)
    (hX : ∀ a ∈ X, p a = true) (hc : p c = false) :
    (X ++ c :: Z).takeWhile p = X := by
  induction X with
  | nil => simp [List.takeWhile, hc]
  | cons x xs ih =>
    have hx : p x = true := hX x (by simp)
    simp only [List.cons_append, List.takeWhile_cons, hx, if_true]
    rw [ih fun a ha => hX a (by simp [ha])]

theorem dropWhile_split {α : Type _} (p : α → Bool) (X Z : List α) (c : α)
    (hX : ∀ a ∈ X, p a = true) (hc : p c = false) :
    (X ++ c :: Z).dropWhile p = c :: Z := by
  induction X with
  | nil => simp [List.dropWhile, hc]
  | cons x xs ih =>
    have hx : p x = true := hX x (by simp)
    simp only [List.cons_append, List.dropWhile_cons, hx, if_true]
    exact ih fun a ha => hX a (by simp [ha])

theorem count_set_true {l : List Bool} {i : Nat} (h : i < l.length)
    (hv : l.getD i false = false) :
    (l.set i true).count true = l.count true + 1 := by
  have := List.count_set true true l i h
  have hg : (l[i] == true) = false := by
    have : l[i] = l.getD i false := by
      rw [List.getD_eq_getElem?_getD, List.getElem?_eq_getElem h]
      rfl
    rw [this, hv]
    rfl
  rw [this, hg]
  simp

theorem count_set_false {l : List Bool} {i : Nat} (h : i < l.length) :
    (l.set i false).count true + (if l.getD i false then 1 else 0) =
      l.count true := by
  have hcs := List.count_set false true l i h
  have hgd : l.getD i false = l[i] := by
    rw [List.getD_eq_getElem?_getD, List.getElem?_eq_getElem h]
    rfl
  rw [hcs, hgd]
  cases hb : l[i] with
  | true =>
    have hmem : (true : Bool) ∈ l := hb ▸ List.getElem_mem h
    have hpos : 0 < l.count true := List.count_pos_iff.mpr hmem
    simp only [hb]
    simp
    omega
  | false => simp [hb]

namespace HashMap

/-- All entries of `l` avoid bucket `h` (under hash state `hash`, `hm`). -/
def BFree (hash : Key → Nat) (hm h : Nat) (l : List (Node Key Value)) : Prop :=
  ∀ n ∈ l, bucketOf hash hm n.key ≠ h

/-- The grouping invariant for one occupied bucket `h`: the entry sequence
splits as `A ++ c :: (C ++ B)` where `c :: C` is the contiguous run of all
entries of bucket `h` (every entry of `c :: C` hashes to `h`, no entry of `A`
or `B` does), and the stored bucket pointer `fo` addresses the first entry
`c` of the run. -/
def Seg (hash : Key → Nat) (hm h : Nat) (fo : Option Nat)
    (l : List (Node Key Value)) : Prop :=
  ∃ A c C B, l = A ++ c :: (C ++ B) ∧
    bucketOf hash hm c.key = h ∧
    (∀ n ∈ C, bucketOf hash hm n.key = h) ∧
    BFree hash hm h A ∧ BFree hash hm h B ∧
    fo = some c.id

/-- The data-structure invariant of a hash-map state: positive table size,
index arrays of length `table_size`, distinct live node ids all below the
allocator counter, the grouping invariant for every occupied bucket, no entry
in an unoccupied bucket, `element_count` at least the number of live entries
(equality can be broken by the handle-based erase), and the load bound that
keeps nested rehashes from ever firing. -/
structure Inv (m : HashMap Key Value) : Prop where
  hm_pos : 1 ≤ m.hashmod_
  used_len : m.used_.length = m.hashmod_
  first_len : m.first_occ_.length = m.hashmod_
  ids_nodup : (m.list_.map Node.id).Nodup
  ids_lt : ∀ n ∈ m.list_, n.id < m.nextId
  buckets : ∀ h, m.used_.getD h false = true →
    Seg m.hasher_ m.hashmod_ h (m.first_occ_.getD h none) m.list_
  unused : ∀ h, m.used_.getD h false = false →
    ∀ n ∈ m.list_, bucketOf m.hasher_ m.hashmod_ n.key ≠ h

/-- Size-accounting invariant of the states at rest (it is transiently broken
between the splice step of a colliding `add` and the `tryresize` that
follows): `element_count` dominates the entry count, and the entry count is
bounded by the load threshold plus the number of occupied buckets.  The
latter bound is what keeps every rehash from re-triggering during its own
reinsertion loop. -/
structure SizeInv (m : HashMap Key Value) : Prop where
  size_ge : m.list_.length ≤ m.size_
  load : m.list_.length ≤ 2 * m.hashmod_ + m.used_.count true

theorem bucketOf_lt (hash : Key → Nat) {hm : Nat} (h1 : 1 ≤ hm) (k : Key) :
    bucketOf hash hm k < hm :=
  Nat.mod_lt _ (by omega)


theorem node_eq_of_id_eq {l : List (Node Key Value)}
    (hn : (l.map Node.id).Nodup) {a b : Node Key Value}
    (ha : a ∈ l) (hb : b ∈ l) (hid : a.id = b.id) : a = b :=
  List.inj_on_of_nodup_map hn ha hb hid

theorem ids_ne_head {A D : List (Node Key Value)} {c : Node Key Value}
    (h : ((A ++ c :: D).map Node.id).Nodup) : ∀ a ∈ A, a.id ≠ c.id := by
  intro a ha
  rw [List.map_append, List.nodup_append] at h
  exact fun hc =>
    h.2.2 (List.mem_map_of_mem Node.id ha) (hc ▸ List.mem_cons_self _ _)

theorem BFree.append {hash : Key → Nat} {hm h : Nat}
    {X Y : List (Node Key Value)} (hx : BFree hash hm h X)
    (hy : BFree hash hm h Y) : BFree hash hm h (X ++ Y) := by
  intro n hn
  rcases List.mem_append.mp hn with hn | hn
  · exact hx n hn
  · exact hy n hn

theorem BFree.cons {hash : Key → Nat} {hm h : Nat} {x : Node Key Value}
    {Y : List (Node Key Value)} (hx : bucketOf hash hm x.key ≠ h)
    (hy : BFree hash hm h Y) : BFree hash hm h (x :: Y) := by
  intro n hn
  rcases List.mem_cons.mp hn with rfl | hn
  · exact hx
  · exact hy n hn

theorem BFree.of_append_left {hash : Key → Nat} {hm h : Nat}
    {X Y : List (Node Key Value)} (hxy : BFree hash hm h (X ++ Y)) :
    BFree hash hm h X :=
  fun n hn => hxy n (List.mem_append_left _ hn)

theorem BFree.of_append_right {hash : Key → Nat} {hm h : Nat}
    {X Y : List (Node Key Value)} (hxy : BFree hash hm h (X ++ Y)) :
    BFree hash hm h Y :=
  fun n hn => hxy n (List.mem_append_right _ hn)

theorem BFree.of_cons {hash : Key → Nat} {hm h : Nat} {x : Node Key Value}
    {Y : List (Node Key Value)} (hxy : BFree hash hm h (x :: Y)) :
    bucketOf hash hm x.key ≠ h ∧ BFree hash hm h Y :=
  ⟨hxy x (List.mem_cons_self _ _), fun n hn => hxy n (List.mem_cons_of_mem _ hn)⟩

/-- Splicing a node of a different bucket directly in front of an entry `c0`
that itself is not of bucket `h'` preserves bucket `h'`'s grouping segment. -/
theorem Seg.insert_before {hash : Key → Nat} {hm h' : Nat} {fo : Option Nat}
    {l X Z : List (Node Key Value)} {c0 node : Node Key Value}
    (hs : Seg hash hm h' fo l) (hsplit : l = X ++ c0 :: Z)
    (hc0 : bucketOf hash hm c0.key ≠ h')
    (hnode : bucketOf hash hm node.key ≠ h') :
    Seg hash hm h' fo (X ++ node :: c0 :: Z) := by
  obtain ⟨A, c, C, B, hl, hc, hC, hA, hB, hfo⟩ := hs
  rw [hsplit] at hl
  rcases List.append_eq_append_iff.mp hl with ⟨a2, ha2, hrest⟩ | ⟨c2, hc2, hrest⟩
  · -- the anchor sits inside `A` (or at its boundary)
    cases a2 with
    | nil =>
      simp only [List.nil_append] at hrest
      cases hrest
      exact absurd hc hc0
    | cons a0 a2t =>
      obtain ⟨rfl, hZ⟩ : c0 = a0 ∧ Z = a2t ++ c :: (C ++ B) := by
        have := hrest
        simp only [List.cons_append] at this
        exact ⟨(List.cons.injEq _ _ _ _).mp this |>.1,
          (List.cons.injEq _ _ _ _).mp this |>.2⟩
      refine ⟨X ++ node :: c0 :: a2t, c, C, B, ?_, hc, hC, ?_, hB, hfo⟩
      · rw [hZ]
        simp
      · rw [ha2] at hA
        have h1 := hA.of_append_left
        have h2 := hA.of_append_right
        exact BFree.append h1 (BFree.cons hnode h2)
  · -- the anchor sits inside the run `c :: C` (impossible) or inside `B`
    cases c2 with
    | nil =>
      simp only [List.nil_append] at hrest
      cases hrest
      exact absurd hc hc0
    | cons c1 c2t =>
      obtain ⟨rfl, hrest2⟩ : c = c1 ∧ C ++ B = c2t ++ c0 :: Z := by
        simp only [List.cons_append] at hrest
        exact ⟨(List.cons.injEq _ _ _ _).mp hrest |>.1,
          (List.cons.injEq _ _ _ _).mp hrest |>.2⟩
      rcases List.append_eq_append_iff.mp hrest2 with ⟨e, he, hB2⟩ | ⟨f, hf, hB2⟩
      · -- anchor inside `B`
        refine ⟨A, c, C, e ++ node :: c0 :: Z, ?_, hc, hC, hA, ?_, hfo⟩
        · rw [hc2, he]
          simp
        · rw [hB2] at hB
          have h1 := hB.of_append_left
          have h2 := (hB.of_append_right).of_cons
          exact BFree.append h1 (BFree.cons hnode (BFree.cons hc0 h2.2))
      · cases f with
        | nil =>
          -- anchor exactly at the start of `B`
          simp only [List.nil_append] at hB2
          refine ⟨A, c, C, node :: c0 :: Z, ?_, hc, hC, hA, ?_, hfo⟩
          · rw [hc2, hf]
            simp
          · have hB' : BFree hash hm h' (c0 :: Z) := by
              rw [hB2]
              exact hB
            exact BFree.cons hnode (BFree.cons hc0 hB'.of_cons.2)
        | cons f0 ft =>
          exfalso
          have : c0 ∈ C := by
            have hf0 : c0 = f0 := by
              simp only [List.cons_append] at hB2
              exact (List.cons.injEq _ _ _ _).mp hB2 |>.1
            rw [hf, hf0]
            exact List.mem_append_right _ (List.mem_cons_self _ _)
          exact hc0 (hC _ this)

/-- Removing an entry of a different bucket preserves bucket `h'`'s grouping
segment. -/
theorem Seg.erase_mid {hash : Key → Nat} {hm h' : Nat} {fo : Option Nat}
    {l X Z : List (Node Key Value)} {e : Node Key Value}
    (hs : Seg hash hm h' fo l) (hsplit : l = X ++ e :: Z)
    (he : bucketOf hash hm e.key ≠ h') :
    Seg hash hm h' fo (X ++ Z) := by
  obtain ⟨A, c, C, B, hl, hc, hC, hA, hB, hfo⟩ := hs
  rw [hsplit] at hl
  rcases List.append_eq_append_iff.mp hl with ⟨a2, ha2, hrest⟩ | ⟨c2, hc2, hrest⟩
  · cases a2 with
    | nil =>
      simp only [List.nil_append] at hrest
      cases hrest
      exact absurd hc he
    | cons a0 a2t =>
      obtain ⟨rfl, hZ⟩ : e = a0 ∧ Z = a2t ++ c :: (C ++ B) := by
        simp only [List.cons_append] at hrest
        exact ⟨(List.cons.injEq _ _ _ _).mp hrest |>.1,
          (List.cons.injEq _ _ _ _).mp hrest |>.2⟩
      refine ⟨X ++ a2t, c, C, B, ?_, hc, hC, ?_, hB, hfo⟩
      · rw [hZ]
        simp
      · rw [ha2] at hA
        exact BFree.append hA.of_append_left (hA.of_append_right.of_cons).2
  · cases c2 with
    | nil =>
      simp only [List.nil_append] at hrest
      cases hrest
      exact absurd hc he
    | cons c1 c2t =>
      obtain ⟨rfl, hrest2⟩ : c = c1 ∧ C ++ B = c2t ++ e :: Z := by
        simp only [List.cons_append] at hrest
        exact ⟨(List.cons.injEq _ _ _ _).mp hrest |>.1,
          (List.cons.injEq _ _ _ _).mp hrest |>.2⟩
      rcases List.append_eq_append_iff.mp hrest2 with ⟨f, hf, hB2⟩ | ⟨f, hf, hB2⟩
      · refine ⟨A, c, C, f ++ Z, ?_, hc, hC, hA, ?_, hfo⟩
        · rw [hc2, hf]
          simp
        · rw [hB2] at hB
          exact BFree.append hB.of_append_left (hB.of_append_right.of_cons).2
      · cases f with
        | nil =>
          simp only [List.nil_append] at hB2
          simp only [List.append_nil] at hf
          refine ⟨A, c, c2t, Z, ?_, hc, ?_, hA, ?_, hfo⟩
          · rw [hc2]
            simp
          · intro n hn
            exact hC n (by rw [hf]; exact hn)
          · have hB' : BFree hash hm h' (e :: Z) := by
              rw [hB2]
              exact hB
            exact hB'.of_cons.2
        | cons f0 ft =>
          exfalso
          have : e ∈ C := by
            have hf0 : e = f0 := by
              simp only [List.cons_append] at hB2
              exact (List.cons.injEq _ _ _ _).mp hB2 |>.1
            rw [hf, hf0]
            exact List.mem_append_right _ (List.mem_cons_self _ _)
          exact he (hC _ this)

theorem bne_id_true_of_ne {a c : Node Key Value} (h : a.id ≠ c.id) :
    (a.id != c.id) = true := by
  simpa using h

theorem dropWhileId_split {A D : List (Node Key Value)} {c : Node Key Value}
    (hne : ∀ a ∈ A, a.id ≠ c.id) :
    (A ++ c :: D).dropWhile (fun e => e.id != c.id) = c :: D :=
  dropWhile_split _ A D c (fun a ha => bne_id_true_of_ne (hne a ha)) (by simp)

theorem insertBeforeId_split {A D : List (Node Key Value)}
    {c : Node Key Value} (x : Node Key Value)
    (hne : ∀ a ∈ A, a.id ≠ c.id) :
    insertBeforeId (A ++ c :: D) c.id x = A ++ x :: c :: D := by
  unfold insertBeforeId
  rw [takeWhile_split _ A D c (fun a ha => bne_id_true_of_ne (hne a ha)) (by simp),
    dropWhileId_split hne]

theorem eraseId_split {A D : List (Node Key Value)} {c : Node Key Value}
    (hne : ∀ a ∈ A, a.id ≠ c.id) :
    eraseId (A ++ c :: D) c.id = A ++ D := by
  unfold eraseId
  rw [takeWhile_split _ A D c (fun a ha => bne_id_true_of_ne (hne a ha)) (by simp),
    dropWhileId_split hne]
  rfl

theorem nextOfId_split {A D : List (Node Key Value)} {c : Node Key Value}
    (hne : ∀ a ∈ A, a.id ≠ c.id) :
    nextOfId (A ++ c :: D) c.id = D.head? := by
  unfold nextOfId
  rw [dropWhileId_split hne]
  cases D <;> rfl

theorem length_insertBeforeId (l : List (Node Key Value)) (i : Nat)
    (x : Node Key Value) :
    (insertBeforeId l i x).length = l.length + 1 := by
  unfold insertBeforeId
  have hlen : (l.takeWhile (fun e => e.id != i)).length +
      (l.dropWhile (fun e => e.id != i)).length = l.length := by
    rw [← List.length_append, List.takeWhile_append_dropWhile]
  simp only [List.length_append, List.length_cons]
  omega

theorem eraseId_sublist (l : List (Node Key Value)) (i : Nat) :
    (eraseId l i).Sublist l := by
  unfold eraseId
  have h2 := List.Sublist.append_left
    (List.tail_sublist (l.dropWhile (fun e => e.id != i)))
    (l.takeWhile (fun e => e.id != i))
  rwa [List.takeWhile_append_dropWhile] at h2

/-- Appending a node of a different bucket at the back preserves bucket
`h'`'s grouping segment. -/
theorem Seg.append_end {hash : Key → Nat} {hm h' : Nat} {fo : Option Nat}
    {l : List (Node Key Value)} {node : Node Key Value}
    (hs : Seg hash hm h' fo l) (hnode : bucketOf hash hm node.key ≠ h') :
    Seg hash hm h' fo (l ++ [node]) := by
  obtain ⟨A, c, C, B, hl, hc, hC, hA, hB, hfo⟩ := hs
  refine ⟨A, c, C, B ++ [node], ?_, hc, hC, hA, ?_, hfo⟩
  · rw [hl]
    simp
  · exact BFree.append hB (BFree.cons hnode fun n hn => absurd hn (by simp))

theorem getD_replicate_same {α : Type _} (n i : Nat) (a : α) :
    (List.replicate n a).getD i a = a := by
  rw [getD_replicate]
  split <;> rfl

/-- `Inv` holds of the freshly reinitialized state that `rehash` builds
before its reinsertion loop. -/
theorem inv_emptyTable (m : HashMap Key Value) (ns : Nat) :
    Inv { clear m with
      hashmod_ := if ns = 0 then 1 else ns,
      first_occ_ := List.replicate (if ns = 0 then 1 else ns) none,
      used_ := List.replicate (if ns = 0 then 1 else ns) false } := by
  constructor
  · show 1 ≤ if ns = 0 then 1 else ns
    split <;> omega
  · exact List.length_replicate _ _
  · exact List.length_replicate _ _
  · show (([] : List (Node Key Value)).map Node.id).Nodup
    simp
  · intro n hn
    exact absurd hn (List.not_mem_nil _)
  · intro h hused
    rw [show ({ clear m with
        hashmod_ := if ns = 0 then 1 else ns,
        first_occ_ := List.replicate (if ns = 0 then 1 else ns) none,
        used_ := List.replicate (if ns = 0 then 1 else ns) false } :
          HashMap Key Value).used_ =
        List.replicate (if ns = 0 then 1 else ns) false from rfl,
      getD_replicate_same] at hused
    cases hused
  · intro h _ n hn
    exact absurd hn (List.not_mem_nil _)

/-- `SizeInv` holds of the freshly reinitialized state as well. -/
theorem sizeInv_emptyTable (m : HashMap Key Value) (ns : Nat) :
    SizeInv { clear m with
      hashmod_ := if ns = 0 then 1 else ns,
      first_occ_ := List.replicate (if ns = 0 then 1 else ns) none,
      used_ := List.replicate (if ns = 0 then 1 else ns) false } := by
  constructor
  · show (([] : List (Node Key Value)).length ≤ 0)
    simp
  · show (([] : List (Node Key Value)).length ≤ _)
    simp

/-- `clear` preserves the structural invariant. -/
theorem inv_clear {m : HashMap Key Value} (hI : Inv m) : Inv m.clear := by
  constructor
  · exact hI.hm_pos
  · exact List.length_replicate _ _
  · exact hI.first_len
  · show (([] : List (Node Key Value)).map Node.id).Nodup
    simp
  · intro n hn
    exact absurd hn (List.not_mem_nil _)
  · intro h hused
    rw [show (clear m).used_ = List.replicate m.hashmod_ false from rfl,
      getD_replicate_same] at hused
    cases hused
  · intro h _ n hn
    exact absurd hn (List.not_mem_nil _)

/-- The single-step invariant preservation for `add(p, h)` with
`h = geth(p.first)`: assuming the supplied resize step preserves `Inv`, so
does the whole insertion. -/
theorem inv_addCore {tryres : HashMap Key Value → HashMap Key Value}
    (htr : ∀ m1 : HashMap Key Value, Inv m1 → Inv (tryres m1))
    {m : HashMap Key Value} (hI : Inv m) (p : Key × Value) :
    Inv (addCore tryres m p (m.geth p.1)) := by
  have hhlt : m.geth p.1 < m.hashmod_ := bucketOf_lt _ hI.hm_pos _
  by_cases hu : m.used_.getD (m.geth p.1) false = false
  · -- unoccupied bucket: push_back, no resize check
    rw [addCore, if_pos hu]
    constructor
    · exact hI.hm_pos
    · rw [List.length_set]
      exact hI.used_len
    · rw [List.length_set]
      exact hI.first_len
    · rw [List.map_append, List.nodup_append]
      refine ⟨hI.ids_nodup, List.nodup_singleton _, ?_⟩
      intro a ha hb
      simp only [List.map_cons, List.map_nil, List.mem_singleton] at hb
      obtain ⟨n, hn, rfl⟩ := List.mem_map.mp ha
      have := hI.ids_lt n hn
      simp only [hb] at this
      omega
    · intro n hn
      show n.id < m.nextId + 1
      rcases List.mem_append.mp hn with hn | hn
      · have := hI.ids_lt n hn
        omega
      · simp only [List.mem_singleton] at hn
        subst hn
        show m.nextId < m.nextId + 1
        omega
    · intro h2 hused2
      by_cases heq : h2 = m.geth p.1
      · subst heq
        refine ⟨m.list_, ⟨m.nextId, p.1, p.2⟩, [], [], by simp, rfl,
          fun n hn => absurd hn (List.not_mem_nil _),
          fun n hn => hI.unused _ hu n hn,
          fun n hn => absurd hn (List.not_mem_nil _), ?_⟩
        rw [getD_set_self]
        rw [hI.first_len]
        exact hhlt
      · have hold : m.used_.getD h2 false = true := by
          rwa [getD_set_ne _ (fun hc => heq hc.symm)] at hused2
        have hseg := hI.buckets h2 hold
        rw [getD_set_ne _ (fun hc => heq hc.symm)]
        exact hseg.append_end fun hb => heq (by rw [← hb]; rfl)
    · intro h2 hu2 n hn
      have hne : h2 ≠ m.geth p.1 := by
        intro heq
        rw [heq, getD_set_self] at hu2
        · cases hu2
        · rw [hI.used_len]
          exact hhlt
      have hold : m.used_.getD h2 false = false := by
        rwa [getD_set_ne _ (fun hc => hne hc.symm)] at hu2
      rcases List.mem_append.mp hn with hn | hn
      · exact hI.unused h2 hold n hn
      · simp only [List.mem_singleton] at hn
        subst hn
        exact fun hb => hne (by rw [← hb]; rfl)
  · -- occupied bucket: splice in front of the run head, then tryresize
    have hu2 : m.used_.getD (m.geth p.1) false = true := by
      cases h2 : m.used_.getD (m.geth p.1) false with
      | false => exact absurd h2 hu
      | true => rfl
    obtain ⟨A, c, C, B, hl, hcb, hC, hA, hB, hfo⟩ := hI.buckets _ hu2
    have hids : ∀ a ∈ A, a.id ≠ c.id := by
      have hnd := hI.ids_nodup
      rw [hl] at hnd
      exact ids_ne_head hnd
    have hins : insertBeforeId m.list_ c.id ⟨m.nextId, p.1, p.2⟩ =
        A ++ ⟨m.nextId, p.1, p.2⟩ :: c :: (C ++ B) := by
      rw [hl]
      exact insertBeforeId_split _ hids
    rw [addCore, if_neg hu, hfo]
    apply htr
    have hperm :
        (A ++ (⟨m.nextId, p.1, p.2⟩ : Node Key Value) :: c :: (C ++ B)).Perm
          ((⟨m.nextId, p.1, p.2⟩ : Node Key Value) :: m.list_) := by
      rw [hl]
      exact List.perm_middle
    constructor
    · exact hI.hm_pos
    · exact hI.used_len
    · rw [List.length_set]
      exact hI.first_len
    · show ((insertBeforeId m.list_ c.id ⟨m.nextId, p.1, p.2⟩).map
        Node.id).Nodup
      rw [hins, (hperm.map Node.id).nodup_iff]
      simp only [List.map_cons, List.nodup_cons]
      refine ⟨?_, hI.ids_nodup⟩
      intro hmem
      obtain ⟨n, hn, hid⟩ := List.mem_map.mp hmem
      have := hI.ids_lt n hn
      simp only [hid] at this
      omega
    · intro n hn
      show n.id < m.nextId + 1
      rw [show ({ m with
          size_ := m.size_ + 1,
          list_ := insertBeforeId m.list_ c.id ⟨m.nextId, p.1, p.2⟩,
          first_occ_ := m.first_occ_.set (m.geth p.1) (some m.nextId),
          nextId := m.nextId + 1 } : HashMap Key Value).list_ =
        insertBeforeId m.list_ c.id ⟨m.nextId, p.1, p.2⟩ from rfl,
        hins] at hn
      rcases List.mem_cons.mp (hperm.mem_iff.mp hn) with rfl | hn
      · show m.nextId < m.nextId + 1
        omega
      · have := hI.ids_lt n hn
        omega
    · intro h2 hused2
      by_cases heq : h2 = m.geth p.1
      · subst heq
        refine ⟨A, ⟨m.nextId, p.1, p.2⟩, c :: C, B, ?_, rfl, ?_, hA, hB, ?_⟩
        · show insertBeforeId m.list_ c.id ⟨m.nextId, p.1, p.2⟩ = _
          rw [hins]
          simp only [List.cons_append]
        · intro n hn
          rcases List.mem_cons.mp hn with rfl | hn
          · exact hcb
          · exact hC n hn
        · rw [getD_set_self]
          rw [hI.first_len]
          exact hhlt
      · have hseg := hI.buckets h2 hused2
        show Seg _ _ _
          ((m.first_occ_.set (m.geth p.1) (some m.nextId)).getD h2 none)
          (insertBeforeId m.list_ c.id ⟨m.nextId, p.1, p.2⟩)
        rw [hins, getD_set_ne _ (fun hc => heq hc.symm)]
        exact hseg.insert_before hl (fun hb => heq (by rw [← hb]; exact hcb))
          (fun hb => heq (by rw [← hb]; rfl))
    · intro h2 hu2 n hn
      have hne : h2 ≠ m.geth p.1 := by
        intro heq
        apply hu
        rw [← heq]
        exact hu2
      rw [show ({ m with
          size_ := m.size_ + 1,
          list_ := insertBeforeId m.list_ c.id ⟨m.nextId, p.1, p.2⟩,
          first_occ_ := m.first_occ_.set (m.geth p.1) (some m.nextId),
          nextId := m.nextId + 1 } : HashMap Key Value).list_ =
        insertBeforeId m.list_ c.id ⟨m.nextId, p.1, p.2⟩ from rfl,
        hins] at hn
      rcases List.mem_cons.mp (hperm.mem_iff.mp hn) with rfl | hn
      · exact fun hb => hne (by rw [← hb]; rfl)
      · exact hI.unused h2 hu2 n hn

/-- The single-step invariant preservation for the private
`erase(er, h)` where `er` addresses a live node and `h` is its bucket. -/
theorem inv_eraseIt {m : HashMap Key Value} (hI : Inv m)
    {n : Node Key Value} (hn : n ∈ m.list_) :
    Inv (eraseIt m n.id (bucketOf m.hasher_ m.hashmod_ n.key)) := by
  have hhlt : bucketOf m.hasher_ m.hashmod_ n.key < m.hashmod_ :=
    bucketOf_lt _ hI.hm_pos _
  have hu : m.used_.getD (bucketOf m.hasher_ m.hashmod_ n.key) false = true := by
    cases h2 : m.used_.getD (bucketOf m.hasher_ m.hashmod_ n.key) false with
    | true => rfl
    | false => exact absurd rfl (hI.unused _ h2 n hn)
  obtain ⟨A, c, C, B, hl, hcb, hC, hA, hB, hfo⟩ := hI.buckets _ hu
  have hsubl : (eraseId m.list_ n.id).Sublist m.list_ := eraseId_sublist _ _
  have hnodup' : ((eraseId m.list_ n.id).map Node.id).Nodup :=
    (hsubl.map Node.id).nodup hI.ids_nodup
  have hlt' : ∀ x ∈ eraseId m.list_ n.id, x.id < m.nextId :=
    fun x hx => hI.ids_lt x (hsubl.subset hx)
  have hmem' : ∀ x ∈ eraseId m.list_ n.id, x ∈ m.list_ :=
    fun x hx => hsubl.subset hx
  have hloc : n = c ∨ n ∈ C := by
    rw [hl] at hn
    rcases List.mem_append.mp hn with h2 | h2
    · exact absurd rfl (hA n h2)
    · rcases List.mem_cons.mp h2 with h3 | h3
      · exact Or.inl h3
      · rcases List.mem_append.mp h3 with h4 | h4
        · exact Or.inr h4
        · exact absurd rfl (hB n h4)
  by_cases hfoeq :
      m.first_occ_.getD (bucketOf m.hasher_ m.hashmod_ n.key) none = some n.id
  · -- the erased node is the designated first of its group
    have hcn : c = n := by
      refine node_eq_of_id_eq hI.ids_nodup ?_ hn ?_
      · rw [hl]
        exact List.mem_append_right _ (List.mem_cons_self _ _)
      · rw [hfo] at hfoeq
        exact Option.some_injective _ hfoeq
    subst hcn
    have hids : ∀ a ∈ A, a.id ≠ c.id := by
      have hnd := hI.ids_nodup
      rw [hl] at hnd
      exact ids_ne_head hnd
    have hnext : nextOfId m.list_ c.id = (C ++ B).head? := by
      rw [hl]
      exact nextOfId_split hids
    have herase : eraseId m.list_ c.id = A ++ (C ++ B) := by
      rw [hl]
      exact eraseId_split hids
    rw [eraseIt, if_pos hfoeq, hnext]
    cases hCc : C with
    | nil =>
      -- the group dies: unmark the bucket
      have hunmark : Inv { m with
          used_ := m.used_.set (bucketOf m.hasher_ m.hashmod_ c.key) false,
          list_ := eraseId m.list_ c.id } := by
        constructor
        · exact hI.hm_pos
        · rw [List.length_set]
          exact hI.used_len
        · exact hI.first_len
        · exact hnodup'
        · exact hlt'
        · intro h2 hused2
          have hne : h2 ≠ bucketOf m.hasher_ m.hashmod_ c.key := by
            intro heq
            rw [heq, getD_set_self] at hused2
            · cases hused2
            · rw [hI.used_len]
              exact hhlt
          have hold : m.used_.getD h2 false = true := by
            rwa [getD_set_ne _ (fun hc0 => hne hc0.symm)] at hused2
          have hseg := hI.buckets h2 hold
          show Seg _ _ _ (m.first_occ_.getD h2 none) (eraseId m.list_ c.id)
          rw [herase, hCc]
          exact hseg.erase_mid (by rw [hl, hCc])
            (fun hb => hne (by rw [← hb]))
        · intro h2 hu2 x hx
          by_cases heq : h2 = bucketOf m.hasher_ m.hashmod_ c.key
          · subst heq
            rw [herase, hCc] at hx
            rcases List.mem_append.mp hx with hx | hx
            · exact hA x hx
            · exact hB x (by simpa using hx)
          · have hold : m.used_.getD h2 false = false := by
              rwa [getD_set_ne _ (fun hc0 => heq hc0.symm)] at hu2
            exact hI.unused h2 hold x (hmem' x hx)
      cases hBc : B with
      | nil => simpa [hCc, hBc] using hunmark
      | cons b B2 =>
        have hbb : m.geth b.key ≠ bucketOf m.hasher_ m.hashmod_ c.key :=
          hB b (by rw [hBc]; exact List.mem_cons_self _ _)
        simp only [hCc, hBc, List.nil_append, List.head?_cons]
        rw [if_pos hbb]
        exact hunmark
    | cons c2 C2 =>
      -- the group survives: advance the bucket pointer to the successor
      have hc2 : bucketOf m.hasher_ m.hashmod_ c2.key =
          bucketOf m.hasher_ m.hashmod_ c.key :=
        hC c2 (by rw [hCc]; exact List.mem_cons_self _ _)
      simp only [hCc, List.cons_append, List.head?_cons]
      rw [if_neg (by simpa using hc2)]
      constructor
      · exact hI.hm_pos
      · exact hI.used_len
      · rw [List.length_set]
        exact hI.first_len
      · exact hnodup'
      · exact hlt'
      · intro h2 hused2
        by_cases heq : h2 = bucketOf m.hasher_ m.hashmod_ c.key
        · subst heq
          refine ⟨A, c2, C2, B, ?_, hc2, ?_, hA, hB, ?_⟩
          · show eraseId m.list_ c.id = _
            rw [herase, hCc]
            simp
          · intro x hx
            exact hC x (by rw [hCc]; exact List.mem_cons_of_mem _ hx)
          · rw [getD_set_self]
            rw [hI.first_len]
            exact hhlt
        · have hseg := hI.buckets h2 hused2
          show Seg _ _ _
            ((m.first_occ_.set (bucketOf m.hasher_ m.hashmod_ c.key)
              (some c2.id)).getD h2 none) (eraseId m.list_ c.id)
          rw [herase, getD_set_ne _ (fun hc0 => heq hc0.symm)]
          exact hseg.erase_mid hl (fun hb => heq (by rw [← hb]))
      · intro h2 hu2 x hx
        have hne : h2 ≠ bucketOf m.hasher_ m.hashmod_ c.key := by
          intro heq
          rw [← heq] at hu
          rw [hu] at hu2
          cases hu2
        exact hI.unused h2 hu2 x (hmem' x hx)
  · -- the erased node is not the designated first of its group
    have hnc : n ∈ C := by
      rcases hloc with rfl | h2
      · rw [hfo] at hfoeq
        exact absurd rfl hfoeq
      · exact h2
    obtain ⟨C1, C2, hCeq⟩ := List.append_of_mem hnc
    have hsplit2 : m.list_ = (A ++ c :: C1) ++ n :: (C2 ++ B) := by
      rw [hl, hCeq]
      simp
    have hids2 : ∀ a ∈ A ++ c :: C1, a.id ≠ n.id := by
      have hnd := hI.ids_nodup
      rw [hsplit2] at hnd
      exact ids_ne_head hnd
    have herase : eraseId m.list_ n.id = (A ++ c :: C1) ++ (C2 ++ B) := by
      rw [hsplit2]
      exact eraseId_split hids2
    rw [eraseIt, if_neg hfoeq]
    constructor
    · exact hI.hm_pos
    · exact hI.used_len
    · exact hI.first_len
    · exact hnodup'
    · exact hlt'
    · intro h2 hused2
      by_cases heq : h2 = bucketOf m.hasher_ m.hashmod_ n.key
      · subst heq
        refine ⟨A, c, C1 ++ C2, B, ?_, hcb, ?_, hA, hB, hfo⟩
        · show eraseId m.list_ n.id = _
          rw [herase]
          simp
        · intro x hx
          rcases List.mem_append.mp hx with hx | hx
          · exact hC x (by rw [hCeq]; exact List.mem_append_left _ hx)
          · exact hC x (by
              rw [hCeq]
              exact List.mem_append_right _ (List.mem_cons_of_mem _ hx))
      · have hseg := hI.buckets h2 hused2
        show Seg _ _ _ (m.first_occ_.getD h2 none) (eraseId m.list_ n.id)
        rw [herase]
        exact hseg.erase_mid hsplit2 (fun hb => heq (by rw [← hb]))
    · intro h2 hu2 x hx
      exact hI.unused h2 hu2 x (hmem' x hx)

/-! ## Invariant preservation through the fuelled recursion -/

theorem inv_addItCore
    {addOne : HashMap Key Value → Key × Value → HashMap Key Value}
    (hadd : ∀ (m1 : HashMap Key Value) (p : Key × Value),
      Inv m1 → Inv (addOne m1 p)) :
    ∀ (l : List (Key × Value)) (m : HashMap Key Value),
      Inv m → Inv (addItCore addOne m l)
  | [], _, hI => hI
  | p :: rest, m, hI => inv_addItCore hadd rest (addOne m p) (hadd m p hI)

theorem inv_rehashCore
    {addOne : HashMap Key Value → Key × Value → HashMap Key Value}
    (hadd : ∀ (m1 : HashMap Key Value) (p : Key × Value),
      Inv m1 → Inv (addOne m1 p)) (m : HashMap Key Value) (ns : Nat) :
    Inv (rehashCore addOne m ns) :=
  inv_addItCore hadd (entriesOf m) _ (inv_emptyTable m ns)

theorem inv_tryresizeF :
    ∀ (fuel : Nat) (m : HashMap Key Value), Inv m → Inv (tryresizeF fuel m)
  | 0, _, hI => hI
  | fuel + 1, m, hI => by
    rw [tryresizeF]
    split
    · exact inv_rehashCore
        (fun m1 p hI1 => inv_addCore (inv_tryresizeF fuel) hI1 p) m _
    · exact hI

theorem inv_addKV (fuel : Nat) {m : HashMap Key Value} (hI : Inv m)
    (p : Key × Value) : Inv (addKV fuel m p) :=
  inv_addCore (inv_tryresizeF fuel) hI p

theorem inv_addItF (fuel : Nat) (l : List (Key × Value))
    {m : HashMap Key Value} (hI : Inv m) : Inv (addItF fuel m l) :=
  inv_addItCore (fun m1 p hI1 => inv_addKV fuel hI1 p) l m hI

theorem inv_rehashF (fuel : Nat) (m : HashMap Key Value) (ns : Nat) :
    Inv (rehashF fuel m ns) :=
  inv_rehashCore (fun m1 p hI1 => inv_addKV fuel hI1 p) m ns

theorem inv_mkHM (hash : Key → Nat) : Inv (mkHM hash : HashMap Key Value) :=
  inv_rehashF 1 _ _

theorem inv_ofList (hash : Key → Nat) (l : List (Key × Value)) :
    Inv (ofList hash l) :=
  inv_addItF _ l (inv_mkHM hash)

/-- `Inv` ignores `size_`. -/
theorem inv_set_size {m : HashMap Key Value} (hI : Inv m) (s : Nat) :
    Inv { m with size_ := s } :=
  ⟨hI.hm_pos, hI.used_len, hI.first_len, hI.ids_nodup, hI.ids_lt,
    hI.buckets, hI.unused⟩

/-! ## Field lemmas for the operations -/

theorem tryresizeF_eq_of_le {fuel : Nat} {m : HashMap Key Value}
    (h : m.size_ ≤ m.hashmod_ * 2) : tryresizeF fuel m = m := by
  cases fuel with
  | zero => rfl
  | succ f =>
    rw [tryresizeF, if_neg (by omega)]

theorem eraseIt_size (m : HashMap Key Value) (er h : Nat) :
    (eraseIt m er h).size_ = m.size_ := by
  rw [eraseIt]
  split
  · cases nextOfId m.list_ er with
    | none => rfl
    | some nxt =>
      dsimp only
      by_cases h2 : m.geth nxt.key ≠ h
      · rw [if_pos h2]
      · rw [if_neg h2]
  · rfl

theorem eraseIt_hashmod (m : HashMap Key Value) (er h : Nat) :
    (eraseIt m er h).hashmod_ = m.hashmod_ := by
  rw [eraseIt]
  split
  · cases nextOfId m.list_ er with
    | none => rfl
    | some nxt =>
      dsimp only
      by_cases h2 : m.geth nxt.key ≠ h
      · rw [if_pos h2]
      · rw [if_neg h2]
  · rfl

theorem eraseIt_list (m : HashMap Key Value) (er h : Nat) :
    (eraseIt m er h).list_ = eraseId m.list_ er := by
  rw [eraseIt]
  split
  · cases nextOfId m.list_ er with
    | none => rfl
    | some nxt =>
      dsimp only
      by_cases h2 : m.geth nxt.key ≠ h
      · rw [if_pos h2]
      · rw [if_neg h2]
  · rfl

theorem count_le_of_set_false (l : List Bool) (i : Nat) :
    l.count true ≤ (l.set i false).count true + 1 := by
  by_cases hi : i < l.length
  · have := count_set_false hi
    split at this <;> omega
  · rw [List.set_eq_of_length_le (by omega)]
    omega

theorem eraseIt_usedCount (m : HashMap Key Value) (er h : Nat) :
    m.used_.count true ≤ (eraseIt m er h).used_.count true + 1 := by
  rw [eraseIt]
  split
  · cases nextOfId m.list_ er with
    | none => exact count_le_of_set_false _ _
    | some nxt =>
      dsimp only
      by_cases h2 : m.geth nxt.key ≠ h
      · rw [if_pos h2]
        exact count_le_of_set_false _ _
      · rw [if_neg h2]
        show m.used_.count true ≤ m.used_.count true + 1
        omega
  · show m.used_.count true ≤ m.used_.count true + 1
    omega

theorem eraseId_length {l : List (Node Key Value)} {er : Nat}
    (hmem : ∃ x ∈ l, x.id = er) : (eraseId l er).length + 1 = l.length := by
  have hlen : (l.takeWhile (fun e => e.id != er)).length +
      (l.dropWhile (fun e => e.id != er)).length = l.length := by
    rw [← List.length_append, List.takeWhile_append_dropWhile]
  have hne : l.dropWhile (fun e => e.id != er) ≠ [] := by
    intro hnil
    obtain ⟨x, hx, hid⟩ := hmem
    have := (List.dropWhile_eq_nil_iff).mp hnil x hx
    simp [hid] at this
  rw [eraseId, List.length_append]
  cases hd : l.dropWhile (fun e => e.id != er) with
  | nil => exact absurd hd hne
  | cons y ys =>
    rw [hd] at hlen
    simp only [List.length_cons] at hlen
    simp only [List.tail_cons]
    omega

/-! ## The stored entries, up to permutation -/

theorem map_insertBeforeId {β : Type _} (f : Node Key Value → β)
    (l : List (Node Key Value)) (i : Nat) (x : Node Key Value) :
    ((insertBeforeId l i x).map f).Perm (f x :: l.map f) := by
  unfold insertBeforeId
  rw [List.map_append, List.map_cons]
  refine List.perm_middle.trans ?_
  rw [← List.map_append, List.takeWhile_append_dropWhile]

theorem entriesOf_addCore {tryres : HashMap Key Value → HashMap Key Value}
    (htr : ∀ m1 : HashMap Key Value,
      (entriesOf (tryres m1)).Perm (entriesOf m1))
    (m : HashMap Key Value) (p : Key × Value) (h : Nat) :
    (entriesOf (addCore tryres m p h)).Perm (p :: entriesOf m) := by
  rw [addCore]
  split
  · show ((m.list_ ++ [(⟨m.nextId, p.1, p.2⟩ : Node Key Value)]).map
      (fun n => (n.key, n.val))).Perm (p :: entriesOf m)
    rw [List.map_append]
    exact List.perm_append_singleton _ _
  · refine (htr _).trans ?_
    show (((match m.first_occ_.getD h none with
      | some t => insertBeforeId m.list_ t ⟨m.nextId, p.1, p.2⟩
      | none => m.list_ ++ [(⟨m.nextId, p.1, p.2⟩ : Node Key Value)]) :
        List (Node Key Value)).map
        (fun n => (n.key, n.val))).Perm (p :: entriesOf m)
    cases m.first_occ_.getD h none with
    | none =>
      dsimp only
      rw [List.map_append]
      exact List.perm_append_singleton _ _
    | some t =>
      dsimp only
      exact map_insertBeforeId _ _ _ _

theorem entriesOf_addItCore
    {addOne : HashMap Key Value → Key × Value → HashMap Key Value}
    (hadd : ∀ (m1 : HashMap Key Value) (p : Key × Value),
      (entriesOf (addOne m1 p)).Perm (p :: entriesOf m1)) :
    ∀ (l : List (Key × Value)) (m : HashMap Key Value),
      (entriesOf (addItCore addOne m l)).Perm (entriesOf m ++ l)
  | [], m => by simp [addItCore]
  | p :: rest, m => by
    rw [addItCore]
    refine (entriesOf_addItCore hadd rest _).trans ?_
    refine ((hadd m p).append_right rest).trans ?_
    exact List.perm_middle.symm

theorem entriesOf_rehashCore
    {addOne : HashMap Key Value → Key × Value → HashMap Key Value}
    (hadd : ∀ (m1 : HashMap Key Value) (p : Key × Value),
      (entriesOf (addOne m1 p)).Perm (p :: entriesOf m1))
    (m : HashMap Key Value) (ns : Nat) :
    (entriesOf (rehashCore addOne m ns)).Perm (entriesOf m) := by
  refine (entriesOf_addItCore hadd (entriesOf m) _).trans ?_
  exact List.Perm.refl _

theorem entriesOf_tryresizeF :
    ∀ (fuel : Nat) (m : HashMap Key Value),
      (entriesOf (tryresizeF fuel m)).Perm (entriesOf m)
  | 0, m => List.Perm.refl _
  | fuel + 1, m => by
    rw [tryresizeF]
    split
    · exact entriesOf_rehashCore
        (fun m1 p => entriesOf_addCore (entriesOf_tryresizeF fuel) m1 p _) m _
    · exact List.Perm.refl _

theorem entriesOf_addKV (fuel : Nat) (m : HashMap Key Value)
    (p : Key × Value) :
    (entriesOf (addKV fuel m p)).Perm (p :: entriesOf m) :=
  entriesOf_addCore (entriesOf_tryresizeF fuel) m p _

theorem entriesOf_addItF (fuel : Nat) (l : List (Key × Value))
    (m : HashMap Key Value) :
    (entriesOf (addItF fuel m l)).Perm (entriesOf m ++ l) :=
  entriesOf_addItCore (fun m1 p => entriesOf_addKV fuel m1 p) l m

/-! ## The table size never decreases -/

theorem hashmod_addCore {tryres : HashMap Key Value → HashMap Key Value}
    (htr : ∀ m1 : HashMap Key Value, m1.hashmod_ ≤ (tryres m1).hashmod_)
    (m : HashMap Key Value) (p : Key × Value) (h : Nat) :
    m.hashmod_ ≤ (addCore tryres m p h).hashmod_ := by
  rw [addCore]
  split
  · exact Nat.le_refl _
  · refine Nat.le_trans (Nat.le_of_eq ?_) (htr _)
    rfl

theorem hashmod_addItCore
    {addOne : HashMap Key Value → Key × Value → HashMap Key Value}
    (hadd : ∀ (m1 : HashMap Key Value) (p : Key × Value),
      m1.hashmod_ ≤ (addOne m1 p).hashmod_) :
    ∀ (l : List (Key × Value)) (m : HashMap Key Value),
      m.hashmod_ ≤ (addItCore addOne m l).hashmod_
  | [], _ => Nat.le_refl _
  | p :: rest, m =>
    Nat.le_trans (hadd m p) (hashmod_addItCore hadd rest (addOne m p))

theorem hashmod_rehashCore
    {addOne : HashMap Key Value → Key × Value → HashMap Key Value}
    (hadd : ∀ (m1 : HashMap Key Value) (p : Key × Value),
      m1.hashmod_ ≤ (addOne m1 p).hashmod_)
    (m : HashMap Key Value) (ns : Nat) :
    (if ns = 0 then 1 else ns) ≤ (rehashCore addOne m ns).hashmod_ :=
  hashmod_addItCore hadd (entriesOf m)
    { clear m with
      hashmod_ := if ns = 0 then 1 else ns,
      first_occ_ := List.replicate (if ns = 0 then 1 else ns) none,
      used_ := List.replicate (if ns = 0 then 1 else ns) false }

theorem hashmod_tryresizeF :
    ∀ (fuel : Nat) (m : HashMap Key Value),
      m.hashmod_ ≤ (tryresizeF fuel m).hashmod_
  | 0, _ => Nat.le_refl _
  | fuel + 1, m => by
    rw [tryresizeF]
    split
    · refine Nat.le_trans ?_ (hashmod_rehashCore
        (fun m1 p => hashmod_addCore (hashmod_tryresizeF fuel) m1 p _) m _)
      split <;> omega
    · exact Nat.le_refl _

theorem hashmod_addKV (fuel : Nat) (m : HashMap Key Value)
    (p : Key × Value) : m.hashmod_ ≤ (addKV fuel m p).hashmod_ :=
  hashmod_addCore (hashmod_tryresizeF fuel) m p _

theorem hashmod_addItF (fuel : Nat) (l : List (Key × Value))
    (m : HashMap Key Value) : m.hashmod_ ≤ (addItF fuel m l).hashmod_ :=
  hashmod_addItCore (fun m1 p => hashmod_addKV fuel m1 p) l m

/-! ## The hash function is only changed by assignment -/

theorem hasher_addCore {tryres : HashMap Key Value → HashMap Key Value}
    (htr : ∀ m1 : HashMap Key Value, (tryres m1).hasher_ = m1.hasher_)
    (m : HashMap Key Value) (p : Key × Value) (h : Nat) :
    (addCore tryres m p h).hasher_ = m.hasher_ := by
  rw [addCore]
  split
  · rfl
  · exact htr _

theorem hasher_addItCore
    {addOne : HashMap Key Value → Key × Value → HashMap Key Value}
    (hadd : ∀ (m1 : HashMap Key Value) (p : Key × Value),
      (addOne m1 p).hasher_ = m1.hasher_) :
    ∀ (l : List (Key × Value)) (m : HashMap Key Value),
      (addItCore addOne m l).hasher_ = m.hasher_
  | [], _ => rfl
  | p :: rest, m =>
    (hasher_addItCore hadd rest (addOne m p)).trans (hadd m p)

theorem hasher_rehashCore
    {addOne : HashMap Key Value → Key × Value → HashMap Key Value}
    (hadd : ∀ (m1 : HashMap Key Value) (p : Key × Value),
      (addOne m1 p).hasher_ = m1.hasher_)
    (m : HashMap Key Value) (ns : Nat) :
    (rehashCore addOne m ns).hasher_ = m.hasher_ :=
  hasher_addItCore hadd (entriesOf m)
    { clear m with
      hashmod_ := if ns = 0 then 1 else ns,
      first_occ_ := List.replicate (if ns = 0 then 1 else ns) none,
      used_ := List.replicate (if ns = 0 then 1 else ns) false }

theorem hasher_tryresizeF :
    ∀ (fuel : Nat) (m : HashMap Key Value),
      (tryresizeF fuel m).hasher_ = m.hasher_
  | 0, _ => rfl
  | fuel + 1, m => by
    rw [tryresizeF]
    split
    · exact hasher_rehashCore
        (fun m1 p => hasher_addCore (hasher_tryresizeF fuel) m1 p _) m _
    · rfl

theorem hasher_addKV (fuel : Nat) (m : HashMap Key Value)
    (p : Key × Value) : (addKV fuel m p).hasher_ = m.hasher_ :=
  hasher_addCore (hasher_tryresizeF fuel) m p _

theorem hasher_addItF (fuel : Nat) (l : List (Key × Value))
    (m : HashMap Key Value) : (addItF fuel m l).hasher_ = m.hasher_ :=
  hasher_addItCore (fun m1 p => hasher_addKV fuel m1 p) l m

/-! ## `size_` tracks the entry count along the constructor paths -/

theorem sizeLen_addCore {tryres : HashMap Key Value → HashMap Key Value}
    (htr : ∀ m1 : HashMap Key Value, m1.size_ = m1.list_.length →
      (tryres m1).size_ = (tryres m1).list_.length)
    (m : HashMap Key Value) (p : Key × Value) (h : Nat)
    (hm : m.size_ = m.list_.length) :
    (addCore tryres m p h).size_ = (addCore tryres m p h).list_.length := by
  rw [addCore]
  split
  · show m.size_ + 1 =
      (m.list_ ++ [(⟨m.nextId, p.1, p.2⟩ : Node Key Value)]).length
    rw [List.length_append, List.length_cons]
    simp [hm]
  · refine htr _ ?_
    show m.size_ + 1 = (match m.first_occ_.getD h none with
      | some t => insertBeforeId m.list_ t ⟨m.nextId, p.1, p.2⟩
      | none => m.list_ ++ [(⟨m.nextId, p.1, p.2⟩ : Node Key Value)]).length
    cases m.first_occ_.getD h none with
    | none =>
      dsimp only
      rw [List.length_append, List.length_cons]
      simp [hm]
    | some t =>
      dsimp only
      rw [length_insertBeforeId]
      omega

theorem sizeLen_addItCore
    {addOne : HashMap Key Value → Key × Value → HashMap Key Value}
    (hadd : ∀ (m1 : HashMap Key Value) (p : Key × Value),
      m1.size_ = m1.list_.length →
      (addOne m1 p).size_ = (addOne m1 p).list_.length) :
    ∀ (l : List (Key × Value)) (m : HashMap Key Value),
      m.size_ = m.list_.length →
      (addItCore addOne m l).size_ = (addItCore addOne m l).list_.length
  | [], _, hm => hm
  | p :: rest, m, hm =>
    sizeLen_addItCore hadd rest (addOne m p) (hadd m p hm)

theorem sizeLen_rehashCore
    {addOne : HashMap Key Value → Key × Value → HashMap Key Value}
    (hadd : ∀ (m1 : HashMap Key Value) (p : Key × Value),
      m1.size_ = m1.list_.length →
      (addOne m1 p).size_ = (addOne m1 p).list_.length)
    (m : HashMap Key Value) (ns : Nat) :
    (rehashCore addOne m ns).size_ = (rehashCore addOne m ns).list_.length :=
  sizeLen_addItCore hadd (entriesOf m) _ rfl

theorem sizeLen_tryresizeF :
    ∀ (fuel : Nat) (m : HashMap Key Value), m.size_ = m.list_.length →
      (tryresizeF fuel m).size_ = (tryresizeF fuel m).list_.length
  | 0, _, hm => hm
  | fuel + 1, m, hm => by
    rw [tryresizeF]
    split
    · exact sizeLen_rehashCore
        (fun m1 p hm1 => sizeLen_addCore (sizeLen_tryresizeF fuel) m1 p _ hm1)
        m _
    · exact hm

theorem sizeLen_addKV (fuel : Nat) (m : HashMap Key Value) (p : Key × Value)
    (hm : m.size_ = m.list_.length) :
    (addKV fuel m p).size_ = (addKV fuel m p).list_.length :=
  sizeLen_addCore (sizeLen_tryresizeF fuel) m p _ hm

theorem sizeLen_addItF (fuel : Nat) (l : List (Key × Value))
    (m : HashMap Key Value) (hm : m.size_ = m.list_.length) :
    (addItF fuel m l).size_ = (addItF fuel m l).list_.length :=
  sizeLen_addItCore (fun m1 p hm1 => sizeLen_addKV fuel m1 p hm1) l m hm

/-! ## Below the load threshold, `add` never resizes -/

theorem addF_of_le (fuel : Nat) (m : HashMap Key Value) (p : Key × Value)
    (h : Nat) (hle : m.size_ + 1 ≤ m.hashmod_ * 2) :
    (addF fuel m p h).hashmod_ = m.hashmod_ ∧
      (addF fuel m p h).size_ = m.size_ + 1 := by
  rw [addF, addCore]
  split
  · exact ⟨rfl, rfl⟩
  · have heq := @tryresizeF_eq_of_le Key Value _ _ fuel
      ({ m with
        size_ := m.size_ + 1,
        list_ :=
          match m.first_occ_.getD h none with
          | some t => insertBeforeId m.list_ t ⟨m.nextId, p.1, p.2⟩
          | none => m.list_ ++ [(⟨m.nextId, p.1, p.2⟩ : Node Key Value)],
        first_occ_ := m.first_occ_.set h (some m.nextId),
        nextId := m.nextId + 1 })
      (by show m.size_ + 1 ≤ m.hashmod_ * 2; omega)
    rw [heq]
    exact ⟨rfl, rfl⟩

theorem addKV_of_le (fuel : Nat) (m : HashMap Key Value) (p : Key × Value)
    (hle : m.size_ + 1 ≤ m.hashmod_ * 2) :
    (addKV fuel m p).hashmod_ = m.hashmod_ ∧
      (addKV fuel m p).size_ = m.size_ + 1 :=
  addF_of_le fuel m p (geth m p.1) hle

theorem addItF_of_le :
    ∀ (l : List (Key × Value)) (fuel : Nat) (m : HashMap Key Value),
      m.size_ + l.length ≤ m.hashmod_ * 2 →
      (addItF fuel m l).hashmod_ = m.hashmod_ ∧
        (addItF fuel m l).size_ = m.size_ + l.length
  | [], _, _, _ => ⟨rfl, rfl⟩
  | p :: rest, fuel, m, hle => by
    show (addItF fuel (addKV fuel m p) rest).hashmod_ = m.hashmod_ ∧
      (addItF fuel (addKV fuel m p) rest).size_ = m.size_ + (p :: rest).length
    have h1 := addKV_of_le fuel m p
      (by simp only [List.length_cons] at hle; omega)
    have h2 := addItF_of_le rest fuel (addKV fuel m p)
      (by
        rw [h1.1, h1.2]
        simp only [List.length_cons] at hle
        omega)
    refine ⟨h2.1.trans h1.1, ?_⟩
    rw [h2.2, h1.2]
    simp only [List.length_cons]
    omega

/-! ## Correctness of `find` -/

theorem findLoop_mem {m : HashMap Key Value} {k : Key} {h : Nat} :
    ∀ {l : List (Node Key Value)} {n : Node Key Value},
      findLoop m k h l = some n → n ∈ l ∧ n.key = k
  | [], n => by
    intro hfl
    cases hfl
  | c :: rest, n => by
    intro hfl
    rw [findLoop] at hfl
    by_cases h1 : geth m c.key = h
    · rw [if_pos h1] at hfl
      by_cases h2 : c.key = k
      · rw [if_pos h2] at hfl
        cases hfl
        exact ⟨List.mem_cons_self _ _, h2⟩
      · rw [if_neg h2] at hfl
        have := findLoop_mem hfl
        exact ⟨List.mem_cons_of_mem _ this.1, this.2⟩
    · rw [if_neg h1] at hfl
      cases hfl

theorem findLoop_isSome_of_mem {m : HashMap Key Value} {k : Key} {h : Nat} :
    ∀ {run : List (Node Key Value)} (rest : List (Node Key Value))
      {n : Node Key Value}, (∀ x ∈ run, geth m x.key = h) → n ∈ run →
      n.key = k → (findLoop m k h (run ++ rest)).isSome = true
  | [], _, n => by
    intro _ hn _
    cases hn
  | c :: run2, rest, n => by
    intro hrun hn hk
    rw [List.cons_append, findLoop,
      if_pos (hrun c (List.mem_cons_self _ _))]
    by_cases h2 : c.key = k
    · rw [if_pos h2]
      rfl
    · rw [if_neg h2]
      rcases List.mem_cons.mp hn with rfl | hn2
      · exact absurd hk h2
      · exact findLoop_isSome_of_mem rest
          (fun x hx => hrun x (List.mem_cons_of_mem _ hx)) hn2 hk

theorem findPub_mem {m : HashMap Key Value} {k : Key} {n : Node Key Value}
    (hf : findPub m k = some n) : n ∈ m.list_ ∧ n.key = k := by
  rw [findPub, findH] at hf
  split at hf
  · cases hf
  · split at hf
    · cases hf
    · have := findLoop_mem hf
      exact ⟨(List.dropWhile_sublist _).subset this.1, this.2⟩

theorem findPub_isSome_iff {m : HashMap Key Value} (hI : Inv m) (k : Key) :
    ((findPub m k).isSome = true) ↔ ∃ n ∈ m.list_, n.key = k := by
  constructor
  · intro hs
    cases hf : findPub m k with
    | none => rw [hf] at hs; cases hs
    | some n =>
      have := findPub_mem hf
      exact ⟨n, this.1, this.2⟩
  · intro ⟨n, hn, hk⟩
    have hbn : geth m n.key = m.geth k := by rw [hk]
    by_cases hu : m.used_.getD (m.geth k) false = false
    · exact absurd hbn (hI.unused _ hu n hn)
    · have hu2 : m.used_.getD (m.geth k) false = true := by
        cases h2 : m.used_.getD (m.geth k) false with
        | false => exact absurd h2 hu
        | true => rfl
      obtain ⟨A, c, C, B, hl, hcb, hC, hA, hB, hfo⟩ := hI.buckets _ hu2
      have hids : ∀ a ∈ A, a.id ≠ c.id := by
        have hnd := hI.ids_nodup
        rw [hl] at hnd
        exact ids_ne_head hnd
      have hdrop : m.list_.dropWhile (fun e => e.id != c.id) = c :: (C ++ B) := by
        rw [hl]
        exact dropWhileId_split hids
      rw [findPub, findH, if_neg hu, hfo]
      dsimp only
      rw [hdrop]
      have hnrun : n ∈ c :: C := by
        rw [hl] at hn
        rcases List.mem_append.mp hn with h2 | h2
        · exact absurd hbn (hA n h2)
        · rcases List.mem_cons.mp h2 with rfl | h3
          · exact List.mem_cons_self _ _
          · rcases List.mem_append.mp h3 with h4 | h4
            · exact List.mem_cons_of_mem _ h4
            · exact absurd hbn (hB n h4)
      have hshape : (c :: (C ++ B)) = (c :: C) ++ B := by simp
      rw [hshape]
      exact findLoop_isSome_of_mem B
        (fun x hx => by
          rcases List.mem_cons.mp hx with rfl | hx2
          · exact hcb
          · exact hC x hx2) hnrun hk

theorem findPub_none_iff {m : HashMap Key Value} (hI : Inv m) (k : Key) :
    findPub m k = none ↔ ∀ n ∈ m.list_, n.key ≠ k := by
  rw [← Option.not_isSome_iff_eq_none, findPub_isSome_iff hI]
  constructor
  · intro hne n hn hk
    exact hne ⟨n, hn, hk⟩
  · intro hne ⟨n, hn, hk⟩
    exact hne n hn hk

/-! ## The intermediate states of a colliding `add` and of `rehash` -/

/-- The state after the splice step of a colliding `add(p, h)`, before the
`tryresize()` call. -/
def spliced (m : HashMap Key Value) (p : Key × Value) (h : Nat) :
    HashMap Key Value :=
  { m with
    size_ := m.size_ + 1,
    list_ :=
      match m.first_occ_.getD h none with
      | some t => insertBeforeId m.list_ t ⟨m.nextId, p.1, p.2⟩
      | none => m.list_ ++ [(⟨m.nextId, p.1, p.2⟩ : Node Key Value)],
    first_occ_ := m.first_occ_.set h (some m.nextId),
    nextId := m.nextId + 1 }

theorem addCore_eq_of_collision (tryres : HashMap Key Value → HashMap Key Value)
    (m : HashMap Key Value) (p : Key × Value) (h : Nat)
    (hu : ¬m.used_.getD h false = false) :
    addCore tryres m p h = tryres (spliced m p h) := by
  rw [addCore, if_neg hu]
  rfl

theorem spliced_size (m : HashMap Key Value) (p : Key × Value) (h : Nat) :
    (spliced m p h).size_ = m.size_ + 1 := rfl

theorem spliced_hashmod (m : HashMap Key Value) (p : Key × Value) (h : Nat) :
    (spliced m p h).hashmod_ = m.hashmod_ := rfl

theorem spliced_used (m : HashMap Key Value) (p : Key × Value) (h : Nat) :
    (spliced m p h).used_ = m.used_ := rfl

theorem spliced_length (m : HashMap Key Value) (p : Key × Value) (h : Nat) :
    (spliced m p h).list_.length = m.list_.length + 1 := by
  show (match m.first_occ_.getD h none with
    | some t => insertBeforeId m.list_ t ⟨m.nextId, p.1, p.2⟩
    | none => m.list_ ++ [(⟨m.nextId, p.1, p.2⟩ : Node Key Value)]).length =
      m.list_.length + 1
  cases m.first_occ_.getD h none with
  | none =>
    dsimp only
    rw [List.length_append]
    rfl
  | some t =>
    dsimp only
    rw [length_insertBeforeId]

/-- The freshly reinitialized table that `rehash(new_size)` builds before its
reinsertion loop. -/
def freshTable (m : HashMap Key Value) (new_size : Nat) : HashMap Key Value :=
  { clear m with
    hashmod_ := if new_size = 0 then 1 else new_size,
    first_occ_ := List.replicate (if new_size = 0 then 1 else new_size) none,
    used_ := List.replicate (if new_size = 0 then 1 else new_size) false }

theorem rehashCore_eq
    (addOne : HashMap Key Value → Key × Value → HashMap Key Value)
    (m : HashMap Key Value) (ns : Nat) :
    rehashCore addOne m ns = addItCore addOne (freshTable m ns) (entriesOf m) :=
  rfl

theorem freshTable_hashmod (m : HashMap Key Value) (ns : Nat) :
    (freshTable m ns).hashmod_ = if ns = 0 then 1 else ns := rfl

theorem freshTable_size (m : HashMap Key Value) (ns : Nat) :
    (freshTable m ns).size_ = 0 := rfl

theorem freshTable_list (m : HashMap Key Value) (ns : Nat) :
    (freshTable m ns).list_ = [] := rfl

theorem inv_freshTable (m : HashMap Key Value) (ns : Nat) :
    Inv (freshTable m ns) :=
  inv_emptyTable m ns

theorem sizeInv_freshTable (m : HashMap Key Value) (ns : Nat) :
    SizeInv (freshTable m ns) :=
  sizeInv_emptyTable m ns

theorem tryresizeF_succ_of_gt {f : Nat} {m : HashMap Key Value}
    (hgt : m.size_ > m.hashmod_ * 2) :
    tryresizeF (f + 1) m = rehashF f m (m.hashmod_ * 3) := by
  rw [tryresizeF, if_pos hgt]
  rfl

/-! ## Preservation of the size-accounting invariant -/

theorem sizeInv_addKV (fuel : Nat) {m : HashMap Key Value} (hI : Inv m)
    (hS : SizeInv m) (hfuel : 1 ≤ fuel) (p : Key × Value) :
    SizeInv (addKV fuel m p) := by
  have hhlt : geth m p.1 < m.hashmod_ := bucketOf_lt _ hI.hm_pos _
  by_cases hu : m.used_.getD (geth m p.1) false = false
  · rw [addKV, addF, addCore, if_pos hu]
    constructor
    · show (m.list_ ++ [(⟨m.nextId, p.1, p.2⟩ : Node Key Value)]).length ≤
        m.size_ + 1
      rw [List.length_append]
      have := hS.size_ge
      show m.list_.length + 1 ≤ m.size_ + 1
      omega
    · show (m.list_ ++ [(⟨m.nextId, p.1, p.2⟩ : Node Key Value)]).length ≤
        2 * m.hashmod_ + (m.used_.set (geth m p.1) true).count true
      rw [List.length_append,
        count_set_true (by rw [hI.used_len]; exact hhlt) hu]
      have := hS.load
      show m.list_.length + 1 ≤ 2 * m.hashmod_ + (m.used_.count true + 1)
      omega
  · rw [addKV, addF, addCore_eq_of_collision _ _ _ _ hu]
    by_cases hcase : m.size_ + 1 ≤ m.hashmod_ * 2
    · rw [tryresizeF_eq_of_le (by rw [spliced_size, spliced_hashmod]; omega)]
      constructor
      · rw [spliced_length, spliced_size]
        have := hS.size_ge
        omega
      · rw [spliced_length, spliced_hashmod, spliced_used]
        have := hS.size_ge
        have h0 : 0 ≤ m.used_.count true := Nat.zero_le _
        omega
    · obtain ⟨f, rfl⟩ : ∃ f, fuel = f + 1 := ⟨fuel - 1, by omega⟩
      rw [tryresizeF_succ_of_gt (by rw [spliced_size, spliced_hashmod]; omega)]
      rw [rehashF, rehashCore_eq]
      show SizeInv (addItF f
        (freshTable (spliced m p (geth m p.1))
          ((spliced m p (geth m p.1)).hashmod_ * 3))
        (entriesOf (spliced m p (geth m p.1))))
      have hH : 1 ≤ m.hashmod_ := hI.hm_pos
      have hcnt : m.used_.count true ≤ m.hashmod_ :=
        Nat.le_trans (List.count_le_length _ _) (Nat.le_of_eq hI.used_len)
      have hents : (entriesOf (spliced m p (geth m p.1))).length =
          m.list_.length + 1 := by
        rw [entriesOf, List.length_map, spliced_length]
      have hftH : (freshTable (spliced m p (geth m p.1))
          ((spliced m p (geth m p.1)).hashmod_ * 3)).hashmod_ =
          m.hashmod_ * 3 := by
        rw [freshTable_hashmod, spliced_hashmod, if_neg (by omega)]
      have hcond : (freshTable (spliced m p (geth m p.1))
            ((spliced m p (geth m p.1)).hashmod_ * 3)).size_ +
          (entriesOf (spliced m p (geth m p.1))).length ≤
          (freshTable (spliced m p (geth m p.1))
            ((spliced m p (geth m p.1)).hashmod_ * 3)).hashmod_ * 2 := by
        rw [freshTable_size, hents, hftH]
        have := hS.load
        omega
      have hof := addItF_of_le (entriesOf (spliced m p (geth m p.1))) f
        (freshTable (spliced m p (geth m p.1))
          ((spliced m p (geth m p.1)).hashmod_ * 3)) hcond
      have hsl := sizeLen_addItF f (entriesOf (spliced m p (geth m p.1)))
        (freshTable (spliced m p (geth m p.1))
          ((spliced m p (geth m p.1)).hashmod_ * 3)) rfl
      constructor
      · exact Nat.le_of_eq hsl.symm
      · rw [← hsl, hof.2, hof.1, hftH, freshTable_size, hents]
        have := hS.load
        have h0 : 0 ≤ (addItF f
          (freshTable (spliced m p (geth m p.1))
            ((spliced m p (geth m p.1)).hashmod_ * 3))
          (entriesOf (spliced m p (geth m p.1)))).used_.count true :=
          Nat.zero_le _
        omega

/-! ## Both invariants along every public operation -/

theorem fuel_pos (m : HashMap Key Value) : 1 ≤ FUEL m := by
  rw [FUEL]
  omega

theorem pair_addKV (fuel : Nat) {m : HashMap Key Value}
    (h : Inv m ∧ SizeInv m) (hfuel : 1 ≤ fuel) (p : Key × Value) :
    Inv (addKV fuel m p) ∧ SizeInv (addKV fuel m p) :=
  ⟨inv_addKV fuel h.1 p, sizeInv_addKV fuel h.1 h.2 hfuel p⟩

theorem pair_addItF :
    ∀ (l : List (Key × Value)) (fuel : Nat) {m : HashMap Key Value},
      Inv m ∧ SizeInv m → 1 ≤ fuel →
      Inv (addItF fuel m l) ∧ SizeInv (addItF fuel m l)
  | [], _, _, h, _ => h
  | p :: rest, fuel, m, h, hf => by
    show Inv (addItF fuel (addKV fuel m p) rest) ∧
      SizeInv (addItF fuel (addKV fuel m p) rest)
    exact pair_addItF rest fuel (pair_addKV fuel h hf p) hf

theorem pair_mkHM (hash : Key → Nat) :
    Inv (mkHM hash : HashMap Key Value) ∧
      SizeInv (mkHM hash : HashMap Key Value) :=
  ⟨inv_freshTable (initHM hash) 1, sizeInv_freshTable (initHM hash) 1⟩

theorem pair_ofList (hash : Key → Nat) (l : List (Key × Value)) :
    Inv (ofList hash l) ∧ SizeInv (ofList hash l) :=
  pair_addItF l _ (pair_mkHM hash) (by omega)

theorem pair_insert {m : HashMap Key Value} (h : Inv m ∧ SizeInv m)
    (p : Key × Value) : Inv (m.insert p) ∧ SizeInv (m.insert p) := by
  rw [insert]
  split
  · exact h
  · exact pair_addKV (FUEL m) h (fuel_pos m) p

theorem pair_opIndex {m : HashMap Key Value} (h : Inv m ∧ SizeInv m)
    (k : Key) : Inv (m.opIndex k).1 ∧ SizeInv (m.opIndex k).1 := by
  rw [opIndex]
  split
  · exact h
  · exact pair_addKV (FUEL m) h (fuel_pos m) (k, default)

theorem pair_eraseKey {m : HashMap Key Value} (h : Inv m ∧ SizeInv m)
    (k : Key) : Inv (m.eraseKey k) ∧ SizeInv (m.eraseKey k) := by
  rw [eraseKey]
  cases hf : findH m k (m.geth k) with
  | none => exact h
  | some n =>
    dsimp only
    have hmem := findPub_mem (show findPub m k = some n from hf)
    have hI1 : Inv { m with size_ := m.size_ - 1 } := inv_set_size h.1 _
    have hlen : (eraseIt { m with size_ := m.size_ - 1 } n.id
        (m.geth k)).list_.length + 1 = m.list_.length := by
      rw [eraseIt_list]
      exact eraseId_length ⟨n, hmem.1, rfl⟩
    have hlenpos : 1 ≤ m.list_.length := List.length_pos_of_mem hmem.1
    have hsz : (eraseIt { m with size_ := m.size_ - 1 } n.id
        (m.geth k)).size_ = m.size_ - 1 := eraseIt_size _ _ _
    have hcnt : m.used_.count true ≤ (eraseIt { m with size_ := m.size_ - 1 }
        n.id (m.geth k)).used_.count true + 1 :=
      eraseIt_usedCount { m with size_ := m.size_ - 1 } n.id (m.geth k)
    have hhm : (eraseIt { m with size_ := m.size_ - 1 } n.id
        (m.geth k)).hashmod_ = m.hashmod_ := eraseIt_hashmod _ _ _
    have hbkt : bucketOf
        ({ m with size_ := m.size_ - 1 } : HashMap Key Value).hasher_
        ({ m with size_ := m.size_ - 1 } : HashMap Key Value).hashmod_
        n.key = m.geth k := by
      show m.geth n.key = m.geth k
      rw [hmem.2]
    constructor
    · rw [← hbkt]
      exact inv_eraseIt hI1 hmem.1
    · constructor
      · rw [hsz]
        have := h.2.size_ge
        omega
      · rw [hhm]
        have := h.2.load
        omega

theorem pair_eraseIter {m : HashMap Key Value} (h : Inv m ∧ SizeInv m)
    (er : Nat) : Inv (m.eraseIter er) ∧ SizeInv (m.eraseIter er) := by
  rw [eraseIter]
  cases hf : m.list_.find? (fun e => e.id == er) with
  | none => exact h
  | some n =>
    dsimp only
    have hmem : n ∈ m.list_ := List.mem_of_find?_eq_some hf
    have hid : n.id = er := by
      have := List.find?_some hf
      simpa using this
    subst hid
    have hlen : (eraseIt m n.id (m.geth n.key)).list_.length + 1 =
        m.list_.length := by
      rw [eraseIt_list]
      exact eraseId_length ⟨n, hmem, rfl⟩
    have hsz : (eraseIt m n.id (m.geth n.key)).size_ = m.size_ :=
      eraseIt_size _ _ _
    have hcnt : m.used_.count true ≤
        (eraseIt m n.id (m.geth n.key)).used_.count true + 1 :=
      eraseIt_usedCount _ _ _
    have hhm : (eraseIt m n.id (m.geth n.key)).hashmod_ = m.hashmod_ :=
      eraseIt_hashmod _ _ _
    constructor
    · exact inv_eraseIt h.1 hmem
    · constructor
      · rw [hsz]
        have := h.2.size_ge
        omega
      · rw [hhm]
        have := h.2.load
        omega

theorem pair_clear {m : HashMap Key Value} (h : Inv m ∧ SizeInv m) :
    Inv m.clear ∧ SizeInv m.clear := by
  refine ⟨inv_clear h.1, ?_, ?_⟩
  · show ([] : List (Node Key Value)).length ≤ 0
    exact Nat.le_refl _
  · show ([] : List (Node Key Value)).length ≤
      2 * m.hashmod_ + (List.replicate m.hashmod_ false).count true
    exact Nat.zero_le _

theorem pair_assign (m src : HashMap Key Value) :
    Inv (m.assign src) ∧ SizeInv (m.assign src) := by
  rw [assign]
  have hbase : Inv (freshTable { clear m with hasher_ := src.hasher_ }
        m.hashmod_) ∧
      SizeInv (freshTable { clear m with hasher_ := src.hasher_ }
        m.hashmod_) :=
    ⟨inv_freshTable _ _, sizeInv_freshTable _ _⟩
  exact pair_addItF (entriesOf src) _ hbase (by omega)

/-- Every reachable state satisfies both invariants. -/
theorem reachable_inv {m : HashMap Key Value} (hR : Reachable m) :
    Inv m ∧ SizeInv m := by
  induction hR with
  | base hash => exact pair_mkHM hash
  | ctor hash l => exact pair_ofList hash l
  | ins p _ ih => exact pair_insert ih p
  | idx k _ ih => exact pair_opIndex ih k
  | delKey k _ ih => exact pair_eraseKey ih k
  | delIter er _ _ ih => exact pair_eraseIter ih er
  | clr _ ih => exact pair_clear ih
  | asgn _ _ _ _ => exact pair_assign _ _

/-! ## Lookup after insertion -/

theorem valAt_addKV (fuel : Nat) {m : HashMap Key Value} (hI : Inv m)
    {k : Key} (habs : findPub m k = none) (v : Value) :
    valAt (addKV fuel m (k, v)) k = some v := by
  have hI1 : Inv (addKV fuel m (k, v)) := inv_addKV fuel hI _
  have hperm := entriesOf_addKV fuel m (k, v)
  have habs2 : ∀ x ∈ m.list_, x.key ≠ k := (findPub_none_iff hI k).mp habs
  have hex : ∃ x ∈ (addKV fuel m (k, v)).list_, x.key = k := by
    have hkv : (k, v) ∈ entriesOf (addKV fuel m (k, v)) :=
      hperm.mem_iff.mpr (List.mem_cons_self _ _)
    obtain ⟨x, hx, hxe⟩ := List.mem_map.mp hkv
    exact ⟨x, hx, congrArg Prod.fst hxe⟩
  have hs := (findPub_isSome_iff hI1 k).mpr hex
  obtain ⟨n0, hn0⟩ := Option.isSome_iff_exists.mp hs
  have hm0 := findPub_mem hn0
  have hval : n0.val = v := by
    have hent : (n0.key, n0.val) ∈ entriesOf (addKV fuel m (k, v)) :=
      List.mem_map_of_mem _ hm0.1
    have hcons : (n0.key, n0.val) ∈ ((k, v) :: entriesOf m) :=
      hperm.mem_iff.mp hent
    rcases List.mem_cons.mp hcons with heq | hmem
    · exact congrArg Prod.snd heq
    · obtain ⟨x, hx, hxe⟩ := List.mem_map.mp hmem
      have hxk : x.key = n0.key := congrArg Prod.fst hxe
      exact absurd (hxk.trans hm0.2) (habs2 x hx)
  rw [valAt, hn0]
  show some n0.val = some v
  rw [hval]

/-! ## Per-operation facts for the public interface -/

theorem insert_hashmod (m : HashMap Key Value) (p : Key × Value) :
    m.hashmod_ ≤ (m.insert p).hashmod_ := by
  rw [insert]
  split
  · exact Nat.le_refl _
  · exact hashmod_addKV (FUEL m) m p

theorem opIndex_hashmod (m : HashMap Key Value) (k : Key) :
    m.hashmod_ ≤ (m.opIndex k).1.hashmod_ := by
  rw [opIndex]
  split
  · exact Nat.le_refl _
  · exact hashmod_addKV (FUEL m) m (k, default)

theorem eraseKey_hashmod (m : HashMap Key Value) (k : Key) :
    (m.eraseKey k).hashmod_ = m.hashmod_ := by
  rw [eraseKey]
  cases findH m k (m.geth k) with
  | none => rfl
  | some n => exact eraseIt_hashmod _ _ _

theorem eraseIter_hashmod (m : HashMap Key Value) (er : Nat) :
    (m.eraseIter er).hashmod_ = m.hashmod_ := by
  rw [eraseIter]
  cases m.list_.find? (fun e => e.id == er) with
  | none => rfl
  | some n => exact eraseIt_hashmod _ _ _

theorem clear_hashmod (m : HashMap Key Value) :
    m.clear.hashmod_ = m.hashmod_ := rfl

theorem assign_hashmod (m src : HashMap Key Value) :
    m.hashmod_ ≤ (m.assign src).hashmod_ := by
  rw [assign]
  refine Nat.le_trans ?_
    (hashmod_addItF ((entriesOf src).length + 2) (entriesOf src) _)
  refine Nat.le_trans ?_ (hashmod_rehashCore
    (fun m1 p => hashmod_addKV _ m1 p) _ m.hashmod_)
  split <;> omega

theorem assign_hasher (m src : HashMap Key Value) :
    (m.assign src).hasher_ = src.hasher_ := by
  rw [assign]
  rw [hasher_addItF]
  rw [show rehashF (FUEL { clear m with hasher_ := src.hasher_ })
      { clear m with hasher_ := src.hasher_ } m.hashmod_ =
    rehashCore (addKV (FUEL { clear m with hasher_ := src.hasher_ }))
      { clear m with hasher_ := src.hasher_ } m.hashmod_ from rfl]
  rw [hasher_rehashCore (fun m1 p => hasher_addKV _ m1 p)]

theorem assign_entriesOf (m src : HashMap Key Value) :
    (entriesOf (m.assign src)).Perm (entriesOf src) := by
  rw [assign]
  refine (entriesOf_addItF _ (entriesOf src) _).trans ?_
  have hempty : entriesOf (rehashF
      (FUEL { clear m with hasher_ := src.hasher_ })
      { clear m with hasher_ := src.hasher_ } m.hashmod_) = [] := by
    show entriesOf (freshTable { clear m with hasher_ := src.hasher_ }
      m.hashmod_) = []
    rfl
  rw [hempty, List.nil_append]

theorem assign_sizeLen (m src : HashMap Key Value) :
    (m.assign src).size_ = (m.assign src).list_.length := by
  rw [assign]
  exact sizeLen_addItF _ (entriesOf src) _ rfl

theorem assign_size (m src : HashMap Key Value) :
    (m.assign src).size_ = src.list_.length := by
  rw [assign_sizeLen]
  have hperm := assign_entriesOf m src
  have hlen := hperm.length_eq
  rw [entriesOf, entriesOf, List.length_map, List.length_map] at hlen
  exact hlen

theorem eraseIter_size (m : HashMap Key Value) (er : Nat) :
    (m.eraseIter er).size_ = m.size_ := by
  rw [eraseIter]
  cases m.list_.find? (fun e => e.id == er) with
  | none => rfl
  | some n => exact eraseIt_size _ _ _

theorem eraseIter_length {m : HashMap Key Value} {er : Nat}
    (hmem : er ∈ m.list_.map Node.id) :
    (m.eraseIter er).list_.length + 1 = m.list_.length := by
  obtain ⟨x, hx, hxe⟩ := List.mem_map.mp hmem
  cases hf : m.list_.find? (fun e => e.id == er) with
  | none =>
    have := List.find?_eq_none.mp hf x hx
    simp [hxe] at this
  | some n =>
    rw [eraseIter, hf]
    dsimp only
    rw [eraseIt_list]
    refine eraseId_length ⟨n, List.mem_of_find?_eq_some hf, ?_⟩
    have := List.find?_some hf
    simpa using this

theorem eraseKey_size_of_found {m : HashMap Key Value} {k : Key}
    {n : Node Key Value} (hS : SizeInv m) (hf : findPub m k = some n) :
    (m.eraseKey k).size_ + 1 = m.size_ := by
  rw [eraseKey, show findH m k (m.geth k) = some n from hf]
  dsimp only
  rw [show (eraseIt { m with size_ := m.size_ - 1 } n.id (m.geth k)).size_ =
    m.size_ - 1 from eraseIt_size _ _ _]
  have hmem := findPub_mem hf
  have h1 : 1 ≤ m.list_.length := List.length_pos_of_mem hmem.1
  have h2 := hS.size_ge
  omega

theorem step_hashmod {m m' : HashMap Key Value} (hs : Step m m') :
    m.hashmod_ ≤ m'.hashmod_ := by
  cases hs with
  | ins p => exact insert_hashmod m p
  | idx k => exact opIndex_hashmod m k
  | delKey k => exact Nat.le_of_eq (eraseKey_hashmod m k).symm
  | delIter er => exact Nat.le_of_eq (eraseIter_hashmod m er).symm
  | clr => exact Nat.le_of_eq rfl
  | asgn src => exact assign_hashmod m src

end HashMap

section Claims

open HashMap

/-- C1: for every state reachable by any sequence of public operations and
every bucket `h` marked occupied, the entry sequence splits as
`A ++ c :: (C ++ B)` where `c :: C` is the contiguous run of all bucket-`h`
entries (no entry of a different bucket interleaved, and the run is maximal
because `A` and `B` contain no bucket-`h` entry), and `first_occ_[h]` points
at the run's first entry `c` — so scanning forward from `first[h]` yields
exactly that maximal contiguous run. -/
theorem C1_grouping {Key Value : Type} [DecidableEq Key] [Inhabited Value]
    {m : HashMap Key Value} (hR : Reachable m) :
    ∀ h, m.used_.getD h false = true →
      Seg m.hasher_ m.hashmod_ h (m.first_occ_.getD h none) m.list_ :=
  (reachable_inv hR).1.buckets

/-- C1 witness: the grouping segment of the single occupied bucket after one
insertion into a fresh map. -/
theorem C1_grouping_witness :
    Seg ((mkHM (fun k : Nat => k) : HashMap Nat Nat).insert (0, 5)).hasher_
      ((mkHM (fun k : Nat => k) : HashMap Nat Nat).insert (0, 5)).hashmod_ 0
      (((mkHM (fun k : Nat => k) :
        HashMap Nat Nat).insert (0, 5)).first_occ_.getD 0 none)
      ((mkHM (fun k : Nat => k) : HashMap Nat Nat).insert (0, 5)).list_ :=
  C1_grouping (Reachable.ins (0, 5) (Reachable.base _)) 0 (by rfl)

/-- C4 counterexample: constructing from the pair list
`[(0, 1), (0, 2)]` (a duplicate key) yields `size() = 2` and two stored
entries sharing key `0` — the constructors call `add` without any presence
check, so duplicates are not dropped and `size()` is not the number of
distinct keys. -/
theorem C4_counterexample :
    (ofList (fun k : Nat => k) [(0, 1), (0, 2)] : HashMap Nat Nat).size_ = 2 ∧
    (ofList (fun k : Nat => k) [(0, 1), (0, 2)] :
      HashMap Nat Nat).list_.map Node.key = [0, 0] :=
  ⟨rfl, rfl⟩

/-- C4 (amended): the range / initializer-list constructors perform repeated
unchecked `add`: every input pair is stored (duplicates included), `size()`
equals the number of input pairs, and the stored entries are exactly the
input pairs up to the reordering done by grouping and rehashing. -/
theorem C4_ctor_adds_all {Key Value : Type} [DecidableEq Key]
    [Inhabited Value] (hash : Key → Nat) (l : List (Key × Value)) :
    (ofList hash l).size_ = l.length ∧
    (entriesOf (ofList hash l)).Perm l := by
  have hperm : (entriesOf (ofList hash l)).Perm
      (entriesOf (mkHM hash : HashMap Key Value) ++ l) :=
    entriesOf_addItF _ l _
  have hmk : entriesOf (mkHM hash : HashMap Key Value) = [] := rfl
  rw [hmk, List.nil_append] at hperm
  refine ⟨?_, hperm⟩
  have hsl : (ofList hash l).size_ = (ofList hash l).list_.length := by
    rw [ofList]
    exact sizeLen_addItF _ l _ rfl
  have hlen := hperm.length_eq
  rw [entriesOf, List.length_map] at hlen
  rw [hsl, hlen]

/-- C5 counterexample: a destination whose table has grown to size 3,
assigned from a freshly constructed empty map, keeps table size 3 — not the
table size 1 that re-deriving from the default initial state would give. -/
theorem C5_counterexample :
    Reachable ((((mkHM (fun k : Nat => k) : HashMap Nat Nat).insert
      (0, 0)).insert (1, 1)).insert (2, 2)) ∧
    (((((mkHM (fun k : Nat => k) : HashMap Nat Nat).insert
      (0, 0)).insert (1, 1)).insert (2, 2)).assign
        (mkHM (fun k : Nat => k))).hashmod_ = 3 ∧
    ¬(((((mkHM (fun k : Nat => k) : HashMap Nat Nat).insert
      (0, 0)).insert (1, 1)).insert (2, 2)).assign
        (mkHM (fun k : Nat => k))).hashmod_ = 1 :=
  ⟨Reachable.ins (2, 2) (Reachable.ins (1, 1) (Reachable.ins (0, 0)
    (Reachable.base _))), by decide, by decide⟩

/-- C5 (amended): copy-assignment snapshots the source's entries, clears the
destination, copies the hash function, and reinserts every snapshotted entry
through the insertion path; the destination's table size is re-derived
starting from its own pre-assignment `table_size` (after `clear`, `rehash`
is re-run at the current `hashmod_`), never shrinking below it, and the
source's table size is not copied. -/
theorem C5_assignment {Key Value : Type} [DecidableEq Key] [Inhabited Value]
    (m src : HashMap Key Value) :
    (m.assign src).hasher_ = src.hasher_ ∧
    (entriesOf (m.assign src)).Perm (entriesOf src) ∧
    m.hashmod_ ≤ (m.assign src).hashmod_ :=
  ⟨assign_hasher m src, assign_entriesOf m src, assign_hashmod m src⟩

/-- C6: on a reachable state, erasing a present key through `erase(key)`
drops `size()` by exactly one, while the handle-based `erase(iterator)`
leaves `size()` unchanged even though it removes the entry from the entry
sequence (its length drops by one). -/
theorem C6_erase_counts {Key Value : Type} [DecidableEq Key] [Inhabited Value]
    {m : HashMap Key Value} (hR : Reachable m) :
    (∀ (k : Key) (n : Node Key Value), findPub m k = some n →
      (m.eraseKey k).size_ + 1 = m.size_) ∧
    (∀ er : Nat, (m.eraseIter er).size_ = m.size_) ∧
    (∀ er : Nat, er ∈ m.list_.map Node.id →
      (m.eraseIter er).list_.length + 1 = m.list_.length) :=
  ⟨fun _ _ hf => eraseKey_size_of_found (reachable_inv hR).2 hf,
   fun er => eraseIter_size m er,
   fun _ hmem => eraseIter_length hmem⟩

/-- C6 witness: on the one-entry map `{0 ↦ 5}`, the key-based erase takes
`size()` from 1 to 0, and the handle-based erase keeps `size()` at 1 while
emptying the entry sequence. -/
theorem C6_erase_counts_witness :
    (((mkHM (fun k : Nat => k) : HashMap Nat Nat).insert
      (0, 5)).eraseKey 0).size_ + 1 =
      ((mkHM (fun k : Nat => k) : HashMap Nat Nat).insert (0, 5)).size_ ∧
    (((mkHM (fun k : Nat => k) : HashMap Nat Nat).insert
      (0, 5)).eraseIter 0).size_ =
      ((mkHM (fun k : Nat => k) : HashMap Nat Nat).insert (0, 5)).size_ ∧
    (((mkHM (fun k : Nat => k) : HashMap Nat Nat).insert
      (0, 5)).eraseIter 0).list_.length + 1 =
      ((mkHM (fun k : Nat => k) :
        HashMap Nat Nat).insert (0, 5)).list_.length := by
  have h := C6_erase_counts (Reachable.ins (0, 5)
    (Reachable.base (fun k : Nat => k)))
  exact ⟨h.1 0 ⟨0, 0, 5⟩ (by decide), h.2.1 0, h.2.2 0 (by decide)⟩

/-- C7: the table size is monotonically non-decreasing across every sequence
of public operations — insert, `operator[]`, both erases, `clear`, and
copy-assignment — for the lifetime of the container; no operation shrinks
the table. -/
theorem C7_table_size_monotone {Key Value : Type} [DecidableEq Key]
    [Inhabited Value] {m m' : HashMap Key Value}
    (h : Relation.ReflTransGen Step m m') : m.hashmod_ ≤ m'.hashmod_ := by
  induction h with
  | refl => exact Nat.le_refl _
  | tail _ hstep ih => exact Nat.le_trans ih (step_hashmod hstep)

/-- C7 witness: a two-operation trace (an insertion followed by `clear`)
does not decrease the table size. -/
theorem C7_table_size_monotone_witness :
    (mkHM (fun k : Nat => k) : HashMap Nat Nat).hashmod_ ≤
      ((mkHM (fun k : Nat => k) :
        HashMap Nat Nat).insert (0, 5)).clear.hashmod_ :=
  C7_table_size_monotone
    (Relation.ReflTransGen.tail
      (Relation.ReflTransGen.tail Relation.ReflTransGen.refl
        (Step.ins _ (0, 5)))
      (Step.clr _))

/-- C9: immediately after `clear()`, `size()` is 0, `empty()` is true, and
`find(k)` reports absent for every key, while the table size keeps its
pre-clear value — `clear` never shrinks or resets the bucket table. -/
theorem C9_clear {Key Value : Type} [DecidableEq Key] [Inhabited Value]
    (m : HashMap Key Value) (k : Key) :
    m.clear.size = 0 ∧ m.clear.emptyb = true ∧ findPub m.clear k = none ∧
      m.clear.hashmod_ = m.hashmod_ := by
  refine ⟨rfl, rfl, ?_, rfl⟩
  rw [findPub, findH,
    if_pos (show m.clear.used_.getD (m.clear.geth k) false = false from
      getD_replicate_same _ _ _)]

/-- C10 counterexample: a reachable state produced by a direct handle-based
erase (which leaves `size_` stale at 1 with no entries) does not keep its
`size()` across self-assignment: `m = m` rebuilds the count from the actual
entries, giving 0. -/
theorem C10_counterexample :
    Reachable (((mkHM (fun k : Nat => k) : HashMap Nat Nat).insert
      (0, 5)).eraseIter 0) ∧
    ¬(((((mkHM (fun k : Nat => k) : HashMap Nat Nat).insert
      (0, 5)).eraseIter 0).assign
        (((mkHM (fun k : Nat => k) : HashMap Nat Nat).insert
          (0, 5)).eraseIter 0)).size_ =
      (((mkHM (fun k : Nat => k) : HashMap Nat Nat).insert
        (0, 5)).eraseIter 0).size_) :=
  ⟨Reachable.delIter 0 (Reachable.ins (0, 5) (Reachable.base _)) (by decide),
   by decide⟩

/-- C10 (amended): self-assignment is safe for the stored entries — after
`m = m` the map holds exactly the same key-value entries (the source is
snapshotted before the destination is cleared) — and preserves `size()`
whenever `size()` agreed with the number of stored entries beforehand (a
direct handle-based erase is the only operation that breaks that
agreement). -/
theorem C10_self_assign {Key Value : Type} [DecidableEq Key] [Inhabited Value]
    (m : HashMap Key Value) :
    (entriesOf (m.assign m)).Perm (entriesOf m) ∧
    (m.size_ = m.list_.length → (m.assign m).size_ = m.size_) :=
  ⟨assign_entriesOf m m, fun h => by rw [assign_size m m, ← h]⟩

/-- C10 witness: self-assignment of the one-entry map `{0 ↦ 5}` keeps its
entries and its size. -/
theorem C10_self_assign_witness :
    (entriesOf ((((mkHM (fun k : Nat => k) : HashMap Nat Nat).insert
      (0, 5))).assign
        (((mkHM (fun k : Nat => k) : HashMap Nat Nat).insert (0, 5))))).Perm
      (entriesOf (((mkHM (fun k : Nat => k) : HashMap Nat Nat).insert
        (0, 5)))) ∧
    (((((mkHM (fun k : Nat => k) : HashMap Nat Nat).insert (0, 5))).assign
      (((mkHM (fun k : Nat => k) : HashMap Nat Nat).insert (0, 5)))).size_ =
      (((mkHM (fun k : Nat => k) : HashMap Nat Nat).insert (0, 5))).size_) := by
  have h := C10_self_assign (((mkHM (fun k : Nat => k) :
    HashMap Nat Nat).insert (0, 5)))
  exact ⟨h.1, h.2 (by decide)⟩

/-- C2 counterexample: the claim's erase half fails on a reachable state with
a duplicated key.  Constructing from `[(0, 10), (0, 20)]` stores key `0`
twice (the constructors do not deduplicate); `erase(0)` removes only the
first entry of the scan, so `find(0)` still succeeds afterwards instead of
reporting absent. -/
theorem C2_counterexample :
    Reachable (ofList (fun k : Nat => k) [(0, 10), (0, 20)] :
      HashMap Nat Nat) ∧
    ¬findPub ((ofList (fun k : Nat => k) [(0, 10), (0, 20)] :
      HashMap Nat Nat).eraseKey 0) 0 = none :=
  ⟨Reachable.ctor _ _, by decide⟩

/-- C2 (amended): on every reachable state, if `k` is absent then
immediately after `insert(k, v)` the lookup succeeds with value `v`; and
immediately after `erase(k)`, `find(k)` reports absent provided at most one
stored entry holds key `k` (duplicates can enter only through the
non-deduplicating bulk constructors). -/
theorem C2_round_trip {Key Value : Type} [DecidableEq Key] [Inhabited Value]
    {m : HashMap Key Value} (hR : Reachable m) (k : Key) (v : Value) :
    (findPub m k = none → valAt (m.insert (k, v)) k = some v) ∧
    (m.list_.countP (fun x => decide (x.key = k)) ≤ 1 →
      findPub (m.eraseKey k) k = none) := by
  have hI := (reachable_inv hR).1
  constructor
  · intro habs
    rw [HashMap.insert, if_neg (by
      rw [countKey, show findH m (k, v).1 (m.geth (k, v).1) = none from habs]
      simp)]
    exact valAt_addKV (FUEL m) hI habs v
  · intro hcnt
    cases hf : findPub m k with
    | none =>
      rw [eraseKey, show findH m k (m.geth k) = none from hf]
      exact hf
    | some n =>
      have hmem := findPub_mem hf
      rw [eraseKey, show findH m k (m.geth k) = some n from hf]
      dsimp only
      have hbkt : bucketOf
          ({ m with size_ := m.size_ - 1 } : HashMap Key Value).hasher_
          ({ m with size_ := m.size_ - 1 } : HashMap Key Value).hashmod_
          n.key = m.geth k := by
        show m.geth n.key = m.geth k
        rw [hmem.2]
      have hI2 : Inv (eraseIt { m with size_ := m.size_ - 1 } n.id
          (m.geth k)) := by
        rw [← hbkt]
        exact inv_eraseIt (inv_set_size hI _) hmem.1
      rw [findPub_none_iff hI2]
      intro x hx hxk
      obtain ⟨X, Z, hXZ⟩ := List.append_of_mem hmem.1
      have hids : ∀ a ∈ X, a.id ≠ n.id := by
        have hnd := hI.ids_nodup
        rw [hXZ] at hnd
        exact ids_ne_head hnd
      have hlist : (eraseIt { m with size_ := m.size_ - 1 } n.id
          (m.geth k)).list_ = X ++ Z := by
        rw [eraseIt_list]
        show eraseId m.list_ n.id = X ++ Z
        rw [hXZ]
        exact eraseId_split hids
      rw [hlist] at hx
      have hcnt2 : X.countP (fun x => decide (x.key = k)) = 0 ∧
          Z.countP (fun x => decide (x.key = k)) = 0 := by
        rw [hXZ, List.countP_append, List.countP_cons] at hcnt
        simp [hmem.2] at hcnt
        omega
      rcases List.mem_append.mp hx with hxm | hxm
      · exact absurd (by simp [hxk])
          (List.countP_eq_zero.mp hcnt2.1 x hxm)
      · exact absurd (by simp [hxk])
          (List.countP_eq_zero.mp hcnt2.2 x hxm)

/-- C2 witness: on the empty map, inserting `(0, 7)` makes `find 0` yield 7,
and erasing `0` leaves `find 0` absent. -/
theorem C2_round_trip_witness :
    valAt ((mkHM (fun k : Nat => k) : HashMap Nat Nat).insert (0, 7)) 0 =
      some 7 ∧
    findPub ((mkHM (fun k : Nat => k) : HashMap Nat Nat).eraseKey 0) 0 =
      none := by
  have h := C2_round_trip (Reachable.base (fun k : Nat => k)) 0 7
  exact ⟨h.1 (by decide), h.2 (by decide)⟩

/-- C3: on a reachable state, `insert(k, v)` of a present key is a no-op; of
an absent key it always adds the entry (entries grow by exactly `(k, v)` up
to reordering), and the resize policy is: an insertion into a
previously-empty bucket never resizes regardless of load (the table size is
unchanged and the entry is appended at the back); an insertion into an
occupied bucket leaves the table size unchanged when
`element_count + 1 ≤ table_size * 2` and rehashes to exactly
`table_size * 3` when `element_count + 1 > table_size * 2`. -/
theorem C3_resize_policy {Key Value : Type} [DecidableEq Key]
    [Inhabited Value] {m : HashMap Key Value} (hR : Reachable m) (k : Key)
    (v : Value) :
    (¬findPub m k = none → m.insert (k, v) = m) ∧
    (findPub m k = none →
      (entriesOf (m.insert (k, v))).Perm ((k, v) :: entriesOf m) ∧
      (m.used_.getD (m.geth k) false = false →
        (m.insert (k, v)).hashmod_ = m.hashmod_ ∧
        (m.insert (k, v)).list_ =
          m.list_ ++ [(⟨m.nextId, k, v⟩ : Node Key Value)]) ∧
      (m.used_.getD (m.geth k) false = true →
        (m.size_ + 1 ≤ m.hashmod_ * 2 →
          (m.insert (k, v)).hashmod_ = m.hashmod_) ∧
        (m.size_ + 1 > m.hashmod_ * 2 →
          (m.insert (k, v)).hashmod_ = m.hashmod_ * 3))) := by
  obtain ⟨hI, hS⟩ := reachable_inv hR
  constructor
  · intro hne
    rw [HashMap.insert, if_pos (by
      rw [countKey]
      cases hf : findH m (k, v).1 (m.geth (k, v).1) with
      | none => exact absurd (show findPub m k = none from hf) hne
      | some n => rfl)]
  · intro habs
    have hins : m.insert (k, v) = addKV (FUEL m) m (k, v) := by
      rw [HashMap.insert, if_neg (by
        rw [countKey,
          show findH m (k, v).1 (m.geth (k, v).1) = none from habs]
        simp)]
      rfl
    refine ⟨?_, ?_, ?_⟩
    · rw [hins]
      exact entriesOf_addKV (FUEL m) m (k, v)
    · intro hu
      rw [hins, addKV, addF, addCore,
        if_pos (show m.used_.getD (geth m (k, v).1) false = false from hu)]
      exact ⟨rfl, rfl⟩
    · intro hu
      have hu2 : ¬m.used_.getD (geth m (k, v).1) false = false := by
        show ¬m.used_.getD (m.geth k) false = false
        rw [hu]
        simp
      constructor
      · intro hle
        rw [hins]
        exact (addKV_of_le (FUEL m) m (k, v) hle).1
      · intro hgt
        rw [hins, addKV, addF, addCore_eq_of_collision _ _ _ _ hu2]
        obtain ⟨f, hfuel⟩ : ∃ f, FUEL m = f + 1 :=
          ⟨FUEL m - 1, by have := fuel_pos m; omega⟩
        rw [hfuel,
          tryresizeF_succ_of_gt (by rw [spliced_size, spliced_hashmod]; omega),
          rehashF, rehashCore_eq]
        show (addItF f
          (freshTable (spliced m (k, v) (geth m (k, v).1))
            ((spliced m (k, v) (geth m (k, v).1)).hashmod_ * 3))
          (entriesOf (spliced m (k, v) (geth m (k, v).1)))).hashmod_ =
          m.hashmod_ * 3
        have hH : 1 ≤ m.hashmod_ := hI.hm_pos
        have hcnt : m.used_.count true ≤ m.hashmod_ :=
          Nat.le_trans (List.count_le_length _ _) (Nat.le_of_eq hI.used_len)
        have hftH : (freshTable (spliced m (k, v) (geth m (k, v).1))
            ((spliced m (k, v) (geth m (k, v).1)).hashmod_ * 3)).hashmod_ =
            m.hashmod_ * 3 := by
          rw [freshTable_hashmod, spliced_hashmod, if_neg (by omega)]
        have hents : (entriesOf (spliced m (k, v) (geth m (k, v).1))).length =
            m.list_.length + 1 := by
          rw [entriesOf, List.length_map, spliced_length]
        have hcond : (freshTable (spliced m (k, v) (geth m (k, v).1))
              ((spliced m (k, v) (geth m (k, v).1)).hashmod_ * 3)).size_ +
            (entriesOf (spliced m (k, v) (geth m (k, v).1))).length ≤
            (freshTable (spliced m (k, v) (geth m (k, v).1))
              ((spliced m (k, v) (geth m (k, v).1)).hashmod_ * 3)).hashmod_ *
              2 := by
          rw [freshTable_size, hents, hftH]
          have := hS.load
          omega
        rw [(addItF_of_le _ f _ hcond).1, hftH]

/-- C3 witness: with identity hashing and table size 1, the third insertion
collides with a full bucket, crosses the load threshold and rehashes the
table to size 3. -/
theorem C3_resize_policy_witness :
    ((((mkHM (fun k : Nat => k) : HashMap Nat Nat).insert (0, 5)).insert
      (1, 6)).insert (2, 7)).hashmod_ =
      (((mkHM (fun k : Nat => k) : HashMap Nat Nat).insert (0, 5)).insert
        (1, 6)).hashmod_ * 3 := by
  have h := C3_resize_policy (Reachable.ins (1, 6) (Reachable.ins (0, 5)
    (Reachable.base (fun k : Nat => k)))) 2 7
  exact ((h.2 (by decide)).2.2 (by decide)).2 (by decide)

/-- C8: on a reachable state, `at(k)` yields the single error condition
exactly when `k` is absent and returns the stored value when present;
`operator[]` never fails — on a present key it returns the stored value and
leaves the map unchanged, on an absent key it materializes a
default-constructed value that a subsequent lookup then finds.  (`find`,
`contains` and `erase` are total functions of the model by construction.) -/
theorem C8_error_handling {Key Value : Type} [DecidableEq Key]
    [Inhabited Value] {m : HashMap Key Value} (hR : Reachable m) (k : Key) :
    ((∃ e, atKey m k = Except.error e) ↔ findPub m k = none) ∧
    (∀ n : Node Key Value, findPub m k = some n →
      atKey m k = Except.ok n.val) ∧
    (∀ n : Node Key Value, findPub m k = some n →
      m.opIndex k = (m, n.val)) ∧
    (findPub m k = none →
      (m.opIndex k).2 = (default : Value) ∧
      valAt (m.opIndex k).1 k = some (default : Value)) := by
  have hI := (reachable_inv hR).1
  refine ⟨?_, ?_, ?_, ?_⟩
  · cases hf : findPub m k with
    | some n =>
      rw [atKey, hf]
      dsimp only
      constructor
      · intro ⟨e, he⟩
        cases he
      · intro h0
        cases h0
    | none =>
      rw [atKey, hf]
      dsimp only
      exact ⟨fun _ => rfl, fun _ => ⟨"none", rfl⟩⟩
  · intro n hf
    rw [atKey, hf]
  · intro n hf
    rw [opIndex, hf]
  · intro habs
    have hval := valAt_addKV (FUEL m) hI habs (default : Value)
    rw [opIndex, habs]
    dsimp only
    refine ⟨?_, hval⟩
    rw [valAt] at hval
    obtain ⟨n1, hf2, hv1⟩ : ∃ n1, findPub (addKV (FUEL m) m (k, default)) k =
        some n1 ∧ n1.val = default := by
      cases hf3 : findPub (addKV (FUEL m) m (k, default)) k with
      | none =>
        rw [hf3] at hval
        exact absurd hval (by simp)
      | some n1 =>
        rw [hf3] at hval
        exact ⟨n1, rfl, Option.some_injective _ hval⟩
    rw [hf2]
    exact hv1

/-- C8 witness: on the empty map, `at(3)` raises the error condition, and
`operator[](3)` materializes the default value 0, which a subsequent lookup
finds. -/
theorem C8_error_handling_witness :
    (∃ e, atKey (mkHM (fun k : Nat => k) : HashMap Nat Nat) 3 =
      Except.error e) ∧
    ((mkHM (fun k : Nat => k) : HashMap Nat Nat).opIndex 3).2 = 0 ∧
    valAt ((mkHM (fun k : Nat => k) : HashMap Nat Nat).opIndex 3).1 3 =
      some 0 := by
  have h := C8_error_handling
    (m := (mkHM (fun k : Nat => k) : HashMap Nat Nat))
    (Reachable.base (fun k : Nat => k)) 3
  exact ⟨h.1.mpr (by decide), (h.2.2.2 (by decide)).1, (h.2.2.2 (by decide)).2⟩

end Claims

end HashMapVerif
